import Mathlib

/-!
# pdf_parser: tokenizer and reference resolution

A shallow embedding of `pdf/tokenizer.go` and `pdf/reference.go`.

* A byte is a natural number (`Nat`); a real stream only holds values below 256.
* The buffered reader is the list of bytes not yet read.  `ReadByte` takes the head
  of that list and fails with `Error.EOF` on the empty list.  Every `UnreadByte` of
  the source directly follows a successful `ReadByte`, so it is embedded as putting
  that byte back in front of the list.
* Every unbounded `for` loop of the source is a function with a first argument
  `fuel` that bounds the number of iterations; the result `none` means that the
  loop has not finished within `fuel` iterations.
-/

namespace pdf

/-- The only stream error of a finite in-memory input: end of stream (`io.EOF`). -/
inductive Error where
  | EOF
  deriving DecidableEq, Repr

/-- `var whitespace = []byte("\x00\t\n\f\r ")`. -/
def whitespace : List Nat := [0, 9, 10, 12, 13, 32]

/-- `var delimiters = []byte("()<>[]/%")`. -/
def delimiters : List Nat := [40, 41, 60, 62, 91, 93, 47, 37]

/-- Modelled from the spec: the type `Token` is not in src/.  The spec describes it as a
growable byte buffer together with the first significant byte that triggered the token
and the boolean `is-number`.  `first` is the byte handed to `NewToken`, `written` holds,
in order, the bytes appended afterwards with `WriteByte`. -/
structure Token where
  first : Nat
  written : List Nat
  IsNumber : Bool
  deriving DecidableEq, Repr

/-- Modelled from the spec: `NewToken` is not in src/.  It starts a token from its
triggering byte, with nothing appended yet and the numeric hint unset. -/
def NewToken (b : Nat) : Token :=
  { first := b, written := [], IsNumber := false }

/-- Modelled from the spec: `Token.WriteByte` (the buffer's append) is not in src/. -/
def Token.WriteByte (token : Token) (b : Nat) : Token :=
  { token with written := token.written ++ [b] }

/-- All bytes a token carries: the triggering byte followed by the appended bytes. -/
def Token.bytes (token : Token) : List Nat :=
  token.first :: token.written

/-- Modelled from the spec: `IsHex` is not in src/.  A hex digit is one of `0`-`9`,
`a`-`f`, `A`-`F`. -/
def IsHex (b : Nat) : Bool :=
  (48 ≤ b && b ≤ 57) || (97 ≤ b && b ≤ 102) || (65 ≤ b && b ≤ 70)

/-- Value of a digit character as `strconv.ParseUint` reads it, `none` for a byte that
is no digit or letter. -/
def digitVal (b : Nat) : Option Nat :=
  if 48 ≤ b ∧ b ≤ 57 then some (b - 48)
  else if 97 ≤ b ∧ b ≤ 122 then some (b - 97 + 10)
  else if 65 ≤ b ∧ b ≤ 90 then some (b - 65 + 10)
  else none

/-- Digit accumulation of `strconv.ParseUint`: `none` on a byte that is not a digit of
the base. -/
def parseDigits (base : Nat) : Nat → List Nat → Option Nat
  | acc, [] => some acc
  | acc, b :: rest =>
    match digitVal b with
    | none => none
    | some d => if d < base then parseDigits base (acc * base + d) rest else none

/-- `strconv.ParseUint(s, base, bitSize)` for an explicit base: the value and whether an
error was returned.  A syntax error gives the value 0, a value that does not fit in
`bitSize` bits gives the largest value of that size. -/
def ParseUint (s : List Nat) (base bitSize : Nat) : Nat × Bool :=
  match s with
  | [] => (0, true)
  | _ =>
    match parseDigits base 0 s with
    | none => (0, true)
    | some n => if n > 2 ^ bitSize - 1 then (2 ^ bitSize - 1, true) else (n, false)

/-- `Reader.ReadBytes(delim)` with the returned bytes dropped: reads up to and including
the first `delim`; fails, with the whole stream consumed, when there is none. -/
def ReadBytes (delim : Nat) : List Nat → Except Error Unit × List Nat
  | [] => (.error .EOF, [])
  | b :: rest => if b = delim then (.ok (), rest) else ReadBytes delim rest

/-- `Tokenizer.SkipWhitespace`, the loop bounded by `fuel` iterations. -/
def SkipWhitespace : Nat → List Nat → Option (Except Error Nat × List Nat)
  | 0, _ => none
  | fuel + 1, s =>
    -- get next byte
    match s with
    | [] => some (.error .EOF, [])
    | b :: rest =>
      -- advance if next byte is whitespace
      if b ∈ whitespace then SkipWhitespace fuel rest
      -- if next byte is start of a comment then advance until next line
      else if b = 37 then
        match ReadBytes 10 rest with
        | (.error e, rest1) => some (.error e, rest1)
        | (.ok _, rest1) => SkipWhitespace fuel rest1
      -- next byte is neither comment or whitespace so return
      else some (.ok b, rest)

/-- The special escape values of a literal string: `n r t b f` after a backslash. -/
def escapeValue (b : Nat) : Nat :=
  if b = 110 then 10
  else if b = 114 then 13
  else if b = 116 then 9
  else if b = 98 then 8
  else if b = 102 then 12
  else b

/-- The loop `for i := 0; i < 2; i++` that adds at most 2 more bytes to an octal
character code; `n` is the number of iterations left. -/
def octalLoop : Nat → List Nat → List Nat → List Nat × List Nat
  | 0, code, s => (code, s)
  | n + 1, code, s =>
    match s with
    | [] => (code, [])
    | b :: rest =>
      -- if next byte is not part of the octal code, unread it and stop
      if b < 48 ∨ b > 55 then (code, b :: rest)
      else octalLoop n (code ++ [b]) rest

/-- Conversion of a collected octal code into a byte.  When the code is too large the
last byte read (the last digit of the code) is unread and the code without it is
converted. -/
def octalByte (code : List Nat) (s : List Nat) : Nat × List Nat :=
  match ParseUint code 8 8 with
  | (val, false) => (val % 256, s)
  | (_, true) =>
    ((ParseUint code.dropLast 8 8).1 % 256, code.getLast?.toList ++ s)

/-- The loop `for open_parens := 1; open_parens > 0;` that scans a literal string,
bounded by `fuel` iterations. -/
def stringLoop : Nat → Nat → Token → List Nat → Option (Token × List Nat)
  | 0, _, _, _ => none
  | fuel + 1, open_parens, token, s =>
    if open_parens > 0 then
      -- read next byte
      match s with
      | [] => some (token.WriteByte 41, [])
      | b :: s1 =>
        -- if this is the start of an escape sequence
        if b = 92 then
          match s1 with
          | [] => some ((token.WriteByte 92).WriteByte 41, [])
          | b :: s2 =>
            -- ignore escaped line breaks \n or \r or \r\n
            if b = 10 then stringLoop fuel open_parens token s2
            else if b = 13 then
              match s2 with
              | [] => some (token.WriteByte 41, [])
              | b :: s3 =>
                if b ≠ 10 then stringLoop fuel open_parens token (b :: s3)
                else stringLoop fuel open_parens token s3
            else
              let b := escapeValue b
              -- if this is the start of an octal character code
              if 48 ≤ b ∧ b ≤ 55 then
                let p := octalLoop 2 [b] s2
                let q := octalByte p.1 p.2
                stringLoop fuel open_parens (token.WriteByte q.1) q.2
              else stringLoop fuel open_parens (token.WriteByte b) s2
        else
          -- add byte to token, keep track of number of open parens
          if b = 40 then stringLoop fuel (open_parens + 1) (token.WriteByte b) s1
          else if b = 41 then stringLoop fuel (open_parens - 1) (token.WriteByte b) s1
          else stringLoop fuel open_parens (token.WriteByte b) s1
    else some (token, s)

/-- The loop `for i := 0; i < 2; i++` that reads the hex code after a `#` in a name;
`n` is the number of iterations left, `i` the index written next. -/
def nameCodeLoop : Nat → Nat → List Nat → List Nat → List Nat × List Nat
  | 0, _, code, s => (code, s)
  | n + 1, i, code, s =>
    match s with
    | [] => (code, [])
    | b :: rest =>
      if !IsHex b then (code, b :: rest)
      else nameCodeLoop n (i + 1) (code.set i b) rest

/-- The loop that parses a name, bounded by `fuel` iterations. -/
def nameLoop : Nat → Token → List Nat → Option (Token × List Nat)
  | 0, _, _ => none
  | fuel + 1, token, s =>
    -- read in the next byte
    match s with
    | [] => some (token, [])
    | b :: s1 =>
      -- if the next byte is whitespace or delimiter then unread it and return the token
      if b ∈ delimiters ∨ b ∈ whitespace then some (token, b :: s1)
      -- if next byte is the start of a hex character code
      else if b = 35 then
        let p := nameCodeLoop 2 0 [48, 48] s1
        nameLoop fuel (token.WriteByte ((ParseUint p.1 16 8).1 % 256)) p.2
      else nameLoop fuel (token.WriteByte b) s1

/-- How the inner loop of a hex string ends: with the finished token, or with a full
pair of digits. -/
inductive HexPair where
  | returned (token : Token) (s : List Nat)
  | pair (code : List Nat) (s : List Nat)
  deriving DecidableEq, Repr

/-- The inner loop `for i := 0; i < 2;` of a hex string, bounded by `fuel` iterations. -/
def hexPairLoop : Nat → Nat → List Nat → Token → List Nat → Option HexPair
  | 0, _, _, _, _ => none
  | fuel + 1, i, code, token, s =>
    if i < 2 then
      match SkipWhitespace (fuel + 1) s with
      | none => none
      | some (.error _, s1) =>
        some (.returned
          ((if i > 0 then token.WriteByte ((ParseUint code 16 8).1 % 256) else token).WriteByte 62) s1)
      | some (.ok b, s1) =>
        if b = 62 then
          some (.returned
            ((if i > 0 then token.WriteByte ((ParseUint code 16 8).1 % 256) else token).WriteByte 62) s1)
        else if !IsHex b then hexPairLoop fuel i code token s1
        else hexPairLoop fuel (i + 1) (code.set i b) token s1
    else some (.pair code s)

/-- The outer loop of a hex string: reads hex code pairs until the end of the hex
string or of the stream, bounded by `fuel` iterations. -/
def hexLoop : Nat → Token → List Nat → Option (Token × List Nat)
  | 0, _, _ => none
  | fuel + 1, token, s =>
    match hexPairLoop (fuel + 1) 0 [48, 48] token s with
    | none => none
    | some (.returned t s1) => some (t, s1)
    | some (.pair code s1) => hexLoop fuel (token.WriteByte ((ParseUint code 16 8).1 % 256)) s1

/-- The loop that scans an ordinary token until the next whitespace or delimiter,
bounded by `fuel` iterations. -/
def ordinaryLoop : Nat → Token → List Nat → Option (Token × List Nat)
  | 0, _, _ => none
  | fuel + 1, token, s =>
    -- get next byte
    match s with
    | [] => some (token, [])
    | b :: s1 =>
      -- if byte is whitespace or delimiter then unread byte and return token
      if b ∈ whitespace ∨ b ∈ delimiters then some (token, b :: s1)
      else
        -- update is number, add byte to token
        ordinaryLoop fuel
          ({ token with IsNumber := token.IsNumber && decide (48 ≤ b ∧ b ≤ 57) }.WriteByte b) s1

/-- Wraps the result of a token loop as the successful return `(token, nil)`. -/
def okToken : Option (Token × List Nat) → Option (Except Error Token × List Nat)
  | none => none
  | some (t, s) => some (.ok t, s)

/-- `Tokenizer.NextToken` with every loop bounded by `fuel` iterations.  The result
holds the returned token or error and the bytes left unread. -/
def NextTokenFuel (fuel : Nat) (s : List Nat) : Option (Except Error Token × List Nat) :=
  -- skip leading whitespace
  match SkipWhitespace fuel s with
  | none => none
  | some (.error e, s1) => some (.error e, s1)
  | some (.ok b, s1) =>
    -- start a new token
    let token := NewToken b
    -- if start or end of array then return as token
    if b = 91 ∨ b = 93 then some (.ok token, s1)
    -- if start of string
    else if b = 40 then okToken (stringLoop fuel 1 token s1)
    -- if start of name
    else if b = 47 then okToken (nameLoop fuel token s1)
    -- if start of hex string or dictionary
    else if b = 60 then
      match s1 with
      | [] => some (.ok (token.WriteByte 62), [])
      | b :: s2 =>
        -- if this is the dictionary start marker then return token
        if b = 60 then some (.ok (token.WriteByte b), s2)
        else okToken (hexLoop fuel token (b :: s2))
    -- if end of dictionary
    else if b = 62 then
      match s1 with
      | [] => some (.ok (token.WriteByte 62), [])
      | b :: s2 =>
        if b ≠ 62 then some (.ok (token.WriteByte 62), b :: s2)
        else some (.ok (token.WriteByte 62), s2)
    else
      -- set token is number if first byte is a digit
      okToken (ordinaryLoop fuel { token with IsNumber := decide (48 ≤ b ∧ b ≤ 57) } s1)

/-- `Tokenizer.NextToken` on the unread input `s`: one iteration per unread byte and one
more is enough for every loop (see `NextToken_terminates`). -/
def NextToken (s : List Nat) : Option (Except Error Token × List Nat) :=
  NextTokenFuel (s.length + 1) s

/-- The first byte of the input that is neither whitespace nor part of a comment, with
the input after it, read off the words of the specification: a comment runs from a `%`
up to and including the next line feed.  `inComment` tells whether the scan is inside a
comment.  `none` when the input holds no such byte. -/
def firstSignificant : Bool → List Nat → Option (Nat × List Nat)
  | _, [] => none
  | true, b :: rest =>
    if b = 10 then firstSignificant false rest else firstSignificant true rest
  | false, b :: rest =>
    if b ∈ whitespace then firstSignificant false rest
    else if b = 37 then firstSignificant true rest
    else some (b, rest)

/-- The stream left by `n` successive calls of `NextToken` that all return a token;
`none` when one of them returns no token. -/
def afterCalls : Nat → List Nat → Option (List Nat)
  | 0, s => some s
  | n + 1, s =>
    match NextToken s with
    | some (.ok _, rest) => afterCalls n rest
    | _ => none

/-- Balance of parentheses as the claim words it, `depth` being the number of `(` still
open: no prefix has more `)` than `(`, and at the end the totals are equal. -/
def balanced : Nat → List Nat → Bool
  | depth, [] => depth == 0
  | depth, b :: rest =>
    if b = 40 then balanced (depth + 1) rest
    else if b = 41 then decide (0 < depth) && balanced (depth - 1) rest
    else balanced depth rest

/-- Value of a hex digit of either case. -/
def hexValue (d : Nat) : Nat :=
  if d ≤ 57 then d - 48
  else if d ≤ 70 then d - 65 + 10
  else d - 97 + 10

/-- The bytes a sequence of hex digits encodes, as the claim words it: the digits are
paired left to right as (high nibble, low nibble), a final unpaired digit being completed
with the low nibble 0. -/
def hexPairs : List Nat → List Nat
  | [] => []
  | [d] => [16 * hexValue d]
  | d1 :: d2 :: rest => (16 * hexValue d1 + hexValue d2) :: hexPairs rest

/-- The two-character code of a `#` escape as the claim words it: start from `00` and
overwrite, left to right, with the hex digits actually read (at most 2). -/
def overwriteCode (hs : List Nat) : List Nat :=
  hs.take 2 ++ ([48, 48] : List Nat).drop (hs.take 2).length

/-- Value of a hex numeral given by its digits. -/
def numeralValue (code : List Nat) : Nat :=
  code.foldl (fun acc d => 16 * acc + hexValue d) 0

/-- The byte a `#` escape followed by the hex digits `hs` stands for. -/
def nameEscapeValue (hs : List Nat) : Nat :=
  numeralValue (overwriteCode hs)

/-- `type Reference struct`.  The field `pdf` is left out: every reference of a document
points to that one document, which the functions below take as an argument. -/
structure Reference where
  Number : Int
  Generation : Int
  deriving DecidableEq, Repr

/-- Modelled from the spec: the type `Object` is not in src/.  The value of an indirect
object is absent, a `Reference`, or any other value (primitive, name, string, array,
dictionary), of which only the fact that it is no reference matters here. -/
inductive Object where
  | null
  | reference (ref : Reference)
  | other (payload : List Nat)
  deriving DecidableEq, Repr

/-- Modelled from the spec: the type `IndirectObject` is not in src/.  The record
`{number, generation, value, stream-bytes}`, the stream being optional. -/
structure IndirectObject where
  Number : Int
  Generation : Int
  Value : Object
  Stream : Option (List Nat)
  deriving DecidableEq, Repr

/-- Modelled from the spec: `NewIndirectObject` is not in src/.  The placeholder that
carries only the object number: no value, no stream. -/
def NewIndirectObject (number : Int) : IndirectObject :=
  { Number := number, Generation := 0, Value := .null, Stream := none }

/-- Modelled from the spec: the document collaborator `Pdf` is not in src/.  Its state is
the current read offset; `objects` is the record stored for each object number and
`position number offset` the offset at which `GetObject(number)` leaves the cursor when it
is called at `offset`. -/
structure Pdf where
  offset : Int
  objects : Int → IndirectObject
  position : Int → Int → Int

/-- Modelled from the spec: `CurrentOffset() -> integer`, the current read position. -/
def Pdf.CurrentOffset (pdf : Pdf) : Int :=
  pdf.offset

/-- Modelled from the spec: `Seek(offset, io.SeekStart)`, the only origin the source uses:
the read cursor is set to `offset`. -/
def Pdf.Seek (pdf : Pdf) (offset : Int) : Pdf :=
  { pdf with offset := offset }

/-- Modelled from the spec: `GetObject(number)` gives the stored record and moves the read
cursor as a side effect. -/
def Pdf.GetObject (pdf : Pdf) (number : Int) : IndirectObject × Pdf :=
  (pdf.objects number, { pdf with offset := pdf.position number pdf.offset })

/-- `Reference.resolve`, with the recursion depth bounded by `fuel`.  The map
`resolved_references` is the list of its keys; it is shared by all recursive calls, so its
final state is returned with the object and the document. -/
def resolve : Nat → Pdf → Reference → List Int → Option (IndirectObject × Pdf × List Int)
  | 0, _, _, _ => none
  | fuel + 1, pdf, reference, resolved_references =>
    -- prevent infinite loop
    if reference.Number ∈ resolved_references then
      some (NewIndirectObject reference.Number, pdf, resolved_references)
    else
      -- read the object from the pdf
      match pdf.GetObject reference.Number with
      | (object, pdf1) =>
        -- recursively resolve references
        match object.Value with
        | .reference ref => resolve fuel pdf1 ref (reference.Number :: resolved_references)
        | _ => some (object, pdf1, reference.Number :: resolved_references)

/-- `Reference.Resolve`: the resolved value and the document after the call. -/
def Resolve (fuel : Nat) (pdf : Pdf) (reference : Reference) : Option (Object × Pdf) :=
  -- save current offset so we can come back
  let current_offset := pdf.CurrentOffset
  match resolve fuel pdf reference [] with
  | none => none
  -- revert offset, return the resolved object value
  | some (object, pdf1, _) => some (object.Value, pdf1.Seek current_offset)

/-- `Reference.ResolveStream`: the resolved stream and the document after the call. -/
def ResolveStream (fuel : Nat) (pdf : Pdf) (reference : Reference) :
    Option (Option (List Nat) × Pdf) :=
  -- save current offset so we can come back
  let current_offset := pdf.CurrentOffset
  match resolve fuel pdf reference [] with
  | none => none
  -- revert offset, return the resolved object stream
  | some (object, pdf1, _) => some (object.Stream, pdf1.Seek current_offset)

/-- The object number that the value of object `n` refers to, when that value is a
reference. -/
def refTarget (objects : Int → IndirectObject) (n : Int) : Option Int :=
  match (objects n).Value with
  | .reference ref => some ref.Number
  | _ => none

/-- A chain of references: the value of every object of the list is a reference to the
next number of the list, and the value of the last one is a reference to `back`. -/
def followsChain (objects : Int → IndirectObject) : List Int → Int → Bool
  | [], _ => true
  | [n], back => refTarget objects n == some back
  | n :: n1 :: rest, back =>
    refTarget objects n == some n1 && followsChain objects (n1 :: rest) back

/-- The document of the cycle example: the value of object 1 is a reference to object 2,
the value of object 2 is a reference to object 1, reading object `n` leaves the cursor at
offset `100 * n`. -/
def cycleDocument : Pdf :=
  { offset := 7
    objects := fun n =>
      if n = 1 then { Number := 1, Generation := 0, Value := .reference ⟨2, 0⟩, Stream := none }
      else if n = 2 then { Number := 2, Generation := 0, Value := .reference ⟨1, 0⟩, Stream := none }
      else { Number := n, Generation := 0, Value := .null, Stream := none }
    position := fun n _ => 100 * n }

/-- The result of `SkipWhitespace` that corresponds to a result of `firstSignificant`. -/
def skipResult : Option (Nat × List Nat) → Except Error Nat × List Nat
  | none => (.error .EOF, [])
  | some (b, rest) => (.ok b, rest)

/-- The stream a finished inner hex loop leaves. -/
def HexPair.stream : HexPair → List Nat
  | .returned _ s => s
  | .pair _ s => s

deriving instance DecidableEq for Except

/-- A chain of references that ends on a value: the value of every object of the list but
the last is a reference to the next number of the list, and the value of the last one is
no reference. -/
def followsPath (objects : Int → IndirectObject) : List Int → Bool
  | [] => true
  | [n] => refTarget objects n == none
  | n :: n1 :: rest =>
    refTarget objects n == some n1 && followsPath objects (n1 :: rest)

/-- The document of the chain example: the value of object 1 is a reference to object 2,
the value of object 2 is a reference to object 3 (written with generation 4), object 3
holds a value and a stream; reading object `n` leaves the cursor at offset `100 * n`. -/
def chainDocument : Pdf :=
  { offset := 7
    objects := fun n =>
      if n = 1 then { Number := 1, Generation := 0, Value := .reference ⟨2, 0⟩, Stream := none }
      else if n = 2 then { Number := 2, Generation := 0, Value := .reference ⟨3, 4⟩, Stream := none }
      else if n = 3 then
        { Number := 3, Generation := 0, Value := .other [52, 50], Stream := some [1, 2, 3] }
      else { Number := n, Generation := 0, Value := .null, Stream := none }
    position := fun n _ => 100 * n }

/-- Value of a run of octal digits read as a base-8 numeral. -/
def octalValue (ds : List Nat) : Nat :=
  ds.foldl (fun acc d => 8 * acc + (d - 48)) 0

/-- How one iteration of the string loop ends: the function returns, or the loop goes on
with a new counter, token and stream. -/
inductive StringStep where
  | done (token : Token) (s : List Nat)
  | next (open_parens : Nat) (token : Token) (s : List Nat)
  deriving DecidableEq, Repr

/-- One iteration of the loop `for open_parens := 1; open_parens > 0;`, the body of
`stringLoop` with every `continue` turned into `StringStep.next`. -/
def stringStep (open_parens : Nat) (token : Token) (s : List Nat) : StringStep :=
  if open_parens > 0 then
    match s with
    | [] => .done (token.WriteByte 41) []
    | b :: s1 =>
      if b = 92 then
        match s1 with
        | [] => .done ((token.WriteByte 92).WriteByte 41) []
        | b :: s2 =>
          if b = 10 then .next open_parens token s2
          else if b = 13 then
            match s2 with
            | [] => .done (token.WriteByte 41) []
            | b :: s3 =>
              if b ≠ 10 then .next open_parens token (b :: s3)
              else .next open_parens token s3
          else
            let b := escapeValue b
            if 48 ≤ b ∧ b ≤ 55 then
              let p := octalLoop 2 [b] s2
              let q := octalByte p.1 p.2
              .next open_parens (token.WriteByte q.1) q.2
            else .next open_parens (token.WriteByte b) s2
      else
        if b = 40 then .next (open_parens + 1) (token.WriteByte b) s1
        else if b = 41 then .next (open_parens - 1) (token.WriteByte b) s1
        else .next open_parens (token.WriteByte b) s1
  else .done token s

/-- The input left after the parenthesis that matches the opening one, as the claim words
it: `depth` is the counter, incremented by every unescaped `(` and decremented by every
unescaped `)`; a byte that follows an unescaped backslash is escaped.  The result is what
follows the first unescaped `)` that brings the counter to 0, `none` when there is none. -/
def closeScan : Nat → List Nat → Option (List Nat)
  | _, [] => none
  | _, [92] => none
  | depth, 92 :: _ :: s => closeScan depth s
  | depth, b :: s =>
    if b = 40 then closeScan (depth + 1) s
    else if b = 41 then (if depth ≤ 1 then some s else closeScan (depth - 1) s)
    else closeScan depth s

/-- The hex digits read after a `#` in a name: at most 2, the run stopping at the first
byte that is no hex digit or at the end of the input. -/
def hexRun (s : List Nat) : List Nat :=
  (s.take 2).takeWhile IsHex

/-- The bytes a name body stands for, as the specification words it: every `#` together
with the hex digits read after it contributes one byte, every other byte is taken as it
is. -/
def nameDecode : List Nat → List Nat
  | [] => []
  | b :: s =>
    if b = 35 then nameEscapeValue (hexRun s) :: nameDecode (s.drop (hexRun s).length)
    else b :: nameDecode s
termination_by s => s.length
decreasing_by
  all_goals simp_wf
  all_goals omega

/-- The bytes that close a hex string: the pending unpaired digit, if any, completed with
the low nibble 0, and then `>`. -/
def hexFinish : Option Nat → List Nat
  | none => [62]
  | some a => [16 * hexValue a, 62]

/-- The bytes appended to a hex-string token, read byte by byte as the specification
words it: whitespace and `%`-to-LF comments are skipped, hex digits are paired, bytes
that are nothing of these are skipped, and `>` or the end of the input closes the string.
`inComment` tells whether the scan is inside a comment, `pending` is the first digit of
an unfinished pair. -/
def hexScan : Bool → Option Nat → List Nat → List Nat
  | _, pending, [] => hexFinish pending
  | true, pending, b :: s =>
    if b = 10 then hexScan false pending s else hexScan true pending s
  | false, pending, b :: s =>
    if b ∈ whitespace then hexScan false pending s
    else if b = 37 then hexScan true pending s
    else if b = 62 then hexFinish pending
    else if IsHex b then
      match pending with
      | none => hexScan false (some b) s
      | some a => (16 * hexValue a + hexValue b) :: hexScan false none s
    else hexScan false pending s

/-- The state of the inner hex loop that corresponds to a pending digit: index 0 with the
code `00`, or index 1 with the first digit written into the code. -/
def hexState (i : Nat) (code : List Nat) : Option Nat → Prop
  | none => i = 0 ∧ code = [48, 48]
  | some a => i = 1 ∧ IsHex a = true ∧ code = [a, 48]

/-- What the result of the inner hex loop, run on `s` from the token `token` with the
pending digit `pending`, has to be for the bytes `hexScan` gives. -/
def hexPairAgrees (token : Token) (pending : Option Nat) (s : List Nat) : HexPair → Prop
  | .returned t _ => t = { token with written := token.written ++ hexScan false pending s }
  | .pair code r => r.length < s.length ∧
      hexScan false pending s = ((ParseUint code 16 8).1 % 256) :: hexScan false none r

/-! ## Theorems -/

theorem ReadBytes_suffix (d : Nat) (s : List Nat) : (ReadBytes d s).2 <:+ s := by
  induction s with
  | nil => simp [ReadBytes]
  | cons b rest ih =>
    unfold ReadBytes
    split
    · exact List.suffix_cons b rest
    · exact ih.trans (List.suffix_cons b rest)

theorem SkipWhitespace_terminates (n : Nat) : ∀ s : List Nat, s.length ≤ n →
    ∃ r rest, rest <:+ s ∧ ((∃ b, r = .ok b) → rest.length < s.length) ∧
      ∀ fuel, s.length < fuel → SkipWhitespace fuel s = some (r, rest) := by
  induction n with
  | zero =>
    intro s hs
    have h0 : s = [] := List.eq_nil_of_length_eq_zero (Nat.le_zero.mp hs)
    subst h0
    refine ⟨.error .EOF, [], List.suffix_refl _, by simp, ?_⟩
    intro fuel hf
    cases fuel with
    | zero => simp at hf
    | succ f => simp [SkipWhitespace]
  | succ n ih =>
    intro s hs
    cases s with
    | nil =>
      refine ⟨.error .EOF, [], List.suffix_refl _, by simp, ?_⟩
      intro fuel hf
      cases fuel with
      | zero => simp at hf
      | succ f => simp [SkipWhitespace]
    | cons b rest =>
      have hrest : rest.length ≤ n := by simpa using hs
      by_cases hw : b ∈ whitespace
      · obtain ⟨r, rest1, hsuf, hlt, hfuel⟩ := ih rest hrest
        refine ⟨r, rest1, hsuf.trans (List.suffix_cons _ _), ?_, ?_⟩
        · intro h
          have := hlt h
          simp only [List.length_cons]
          omega
        · intro fuel hf
          cases fuel with
          | zero => simp at hf
          | succ f =>
            simp only [SkipWhitespace, hw, if_true]
            exact hfuel f (by simpa using hf)
      · by_cases hc : b = 37
        · subst hc
          have hsufR := ReadBytes_suffix 10 rest
          rcases hrb : ReadBytes 10 rest with ⟨res, rest1⟩
          rw [hrb] at hsufR
          simp only at hsufR
          cases res with
          | error e =>
            refine ⟨.error e, rest1, hsufR.trans (List.suffix_cons _ _), by simp, ?_⟩
            intro fuel hf
            cases fuel with
            | zero => simp at hf
            | succ f => simp [SkipWhitespace, hw, hrb]
          | ok u =>
            have hlen1 : rest1.length ≤ rest.length := hsufR.length_le
            obtain ⟨r, rest2, hsuf, hlt, hfuel⟩ := ih rest1 (by omega)
            refine ⟨r, rest2, (hsuf.trans hsufR).trans (List.suffix_cons _ _), ?_, ?_⟩
            · intro h
              have := hlt h
              simp only [List.length_cons]
              omega
            · intro fuel hf
              cases fuel with
              | zero => simp at hf
              | succ f =>
                simp only [SkipWhitespace, hw, hrb, if_true, if_false]
                exact hfuel f (by simp at hf; omega)
        · refine ⟨.ok b, rest, List.suffix_cons _ _, by simp, ?_⟩
          intro fuel hf
          cases fuel with
          | zero => simp at hf
          | succ f => simp [SkipWhitespace, hw, hc]

theorem octalLoop_spec (n : Nat) : ∀ (code s : List Nat),
    ∃ pre post, s = pre ++ post ∧ octalLoop n code s = (code ++ pre, post) ∧
      pre.length ≤ n ∧ ∀ d ∈ pre, 48 ≤ d ∧ d ≤ 55 := by
  induction n with
  | zero => intro code s; exact ⟨[], s, by simp, by simp [octalLoop], by simp, by simp⟩
  | succ n ih =>
    intro code s
    cases s with
    | nil => exact ⟨[], [], by simp, by simp [octalLoop], by simp, by simp⟩
    | cons b rest =>
      by_cases hb : b < 48 ∨ b > 55
      · exact ⟨[], b :: rest, by simp, by simp [octalLoop, hb], by simp, by simp⟩
      · obtain ⟨pre, post, hs, hloop, hlen, hd⟩ := ih (code ++ [b]) rest
        refine ⟨b :: pre, post, by simp [hs], ?_, by simp only [List.length_cons]; omega, ?_⟩
        · simp [octalLoop, hb, hloop]
        · intro d hmem
          rcases List.mem_cons.mp hmem with h | h
          · subst h; omega
          · exact hd d h

theorem ParseUint_octal1 (b : Nat) (h1 : 48 ≤ b) (h2 : b ≤ 55) :
    ParseUint [b] 8 8 = (b - 48, false) := by
  have hd : digitVal b = some (b - 48) := by simp [digitVal, h1]; omega
  have h8 : b - 48 < 8 := by omega
  have h255 : ¬ 255 < b - 48 := by omega
  simp [ParseUint, parseDigits, hd, h8, h255]

theorem ParseUint_octal2 (b c : Nat) (h1 : 48 ≤ b) (h2 : b ≤ 55) (h3 : 48 ≤ c) (h4 : c ≤ 55) :
    ParseUint [b, c] 8 8 = ((b - 48) * 8 + (c - 48), false) := by
  have hb : digitVal b = some (b - 48) := by simp [digitVal, h1]; omega
  have hc : digitVal c = some (c - 48) := by simp [digitVal, h3]; omega
  have hb8 : b - 48 < 8 := by omega
  have hc8 : c - 48 < 8 := by omega
  have h255 : ¬ 255 < (b - 48) * 8 + (c - 48) := by omega
  simp [ParseUint, parseDigits, hb, hc, hb8, hc8, h255]

theorem octalByte_suffix (b : Nat) (h1 : 48 ≤ b) (h2 : b ≤ 55) (s : List Nat) :
    (octalByte (octalLoop 2 [b] s).1 (octalLoop 2 [b] s).2).2 <:+ s := by
  obtain ⟨pre, post, hs, hloop, hlen, hd⟩ := octalLoop_spec 2 [b] s
  rw [hloop, hs]
  match pre, hlen, hd with
  | [], _, _ =>
    simp [octalByte, ParseUint_octal1 b h1 h2]
  | [c], _, hd =>
    have hc := hd c (by simp)
    simp [octalByte, ParseUint_octal2 b c h1 h2 hc.1 hc.2]
  | [c, e], _, hd =>
    have he : [e] ++ post <:+ [c, e] ++ post := ⟨[c], by simp⟩
    unfold octalByte
    split
    · exact (List.suffix_cons e post).trans he
    · simp
  | _ :: _ :: _ :: _, hlen, _ => simp at hlen

theorem stringLoop_terminates (n : Nat) : ∀ s : List Nat, s.length ≤ n →
    ∀ (open_parens : Nat) (token : Token), ∃ t rest, rest <:+ s ∧
      ∀ fuel, s.length < fuel → stringLoop fuel open_parens token s = some (t, rest) := by
  induction n with
  | zero =>
    intro s hs open_parens token
    have h0 : s = [] := List.eq_nil_of_length_eq_zero (Nat.le_zero.mp hs)
    subst h0
    by_cases hp : open_parens > 0
    · refine ⟨token.WriteByte 41, [], List.suffix_refl _, ?_⟩
      intro fuel hf
      cases fuel with
      | zero => simp at hf
      | succ f => simp [stringLoop, hp]
    · refine ⟨token, [], List.suffix_refl _, ?_⟩
      intro fuel hf
      cases fuel with
      | zero => simp at hf
      | succ f => simp [stringLoop, hp]
  | succ n ih =>
    intro s hs open_parens token
    -- one iteration of the loop, every recursive call on a shorter stream
    have step : ∀ (s1 : List Nat) (op : Nat) (tk : Token), s1.length < s.length →
        ∃ t rest, rest <:+ s1 ∧
          ∀ f, s.length < f + 1 → stringLoop f op tk s1 = some (t, rest) := by
      intro s1 op tk hlt
      obtain ⟨t, rest, hsuf, hfuel⟩ := ih s1 (by omega) op tk
      exact ⟨t, rest, hsuf, fun f hf => hfuel f (by omega)⟩
    by_cases hp : open_parens > 0
    swap
    · refine ⟨token, s, List.suffix_refl _, ?_⟩
      intro fuel hf
      cases fuel with
      | zero => simp at hf
      | succ f => simp [stringLoop, hp]
    cases s with
    | nil =>
      refine ⟨token.WriteByte 41, [], List.suffix_refl _, ?_⟩
      intro fuel hf
      cases fuel with
      | zero => simp at hf
      | succ f => simp [stringLoop, hp]
    | cons b s1 =>
      by_cases hb : b = 92
      · subst hb
        cases s1 with
        | nil =>
          refine ⟨(token.WriteByte 92).WriteByte 41, [], List.nil_suffix, ?_⟩
          intro fuel hf
          cases fuel with
          | zero => simp at hf
          | succ f => simp [stringLoop, hp]
        | cons c s2 =>
          by_cases hc : c = 10
          · subst hc
            obtain ⟨t, rest, hsuf, hfuel⟩ := step s2 open_parens token (by simp only [List.length_cons]; omega)
            refine ⟨t, rest, hsuf.trans ⟨[92, 10], by simp⟩, ?_⟩
            intro fuel hf
            cases fuel with
            | zero => simp at hf
            | succ f => simp [stringLoop, hp, hfuel f hf]
          · by_cases hc13 : c = 13
            · subst hc13
              cases s2 with
              | nil =>
                refine ⟨token.WriteByte 41, [], List.nil_suffix, ?_⟩
                intro fuel hf
                cases fuel with
                | zero => simp at hf
                | succ f => simp [stringLoop, hp]
              | cons d s3 =>
                by_cases hd : d = 10
                · subst hd
                  obtain ⟨t, rest, hsuf, hfuel⟩ := step s3 open_parens token (by simp only [List.length_cons]; omega)
                  refine ⟨t, rest, hsuf.trans ⟨[92, 13, 10], by simp⟩, ?_⟩
                  intro fuel hf
                  cases fuel with
                  | zero => simp at hf
                  | succ f => simp [stringLoop, hp, hfuel f hf]
                · obtain ⟨t, rest, hsuf, hfuel⟩ := step (d :: s3) open_parens token (by simp only [List.length_cons]; omega)
                  refine ⟨t, rest, hsuf.trans ⟨[92, 13], by simp⟩, ?_⟩
                  intro fuel hf
                  cases fuel with
                  | zero => simp at hf
                  | succ f => simp [stringLoop, hp, hd, hfuel f hf]
            · by_cases ho : 48 ≤ escapeValue c ∧ escapeValue c ≤ 55
              · have hsufO := octalByte_suffix (escapeValue c) ho.1 ho.2 s2
                obtain ⟨t, rest, hsuf, hfuel⟩ :=
                  step (octalByte (octalLoop 2 [escapeValue c] s2).1 (octalLoop 2 [escapeValue c] s2).2).2
                    open_parens
                    (token.WriteByte
                      (octalByte (octalLoop 2 [escapeValue c] s2).1 (octalLoop 2 [escapeValue c] s2).2).1)
                    (by have := hsufO.length_le; simp; omega)
                refine ⟨t, rest, (hsuf.trans hsufO).trans ⟨[92, c], by simp⟩, ?_⟩
                intro fuel hf
                cases fuel with
                | zero => simp at hf
                | succ f => simp [stringLoop, hp, hc, hc13, ho, hfuel f hf]
              · obtain ⟨t, rest, hsuf, hfuel⟩ :=
                  step s2 open_parens (token.WriteByte (escapeValue c)) (by simp only [List.length_cons]; omega)
                refine ⟨t, rest, hsuf.trans ⟨[92, c], by simp⟩, ?_⟩
                intro fuel hf
                cases fuel with
                | zero => simp at hf
                | succ f => simp [stringLoop, hp, hc, hc13, ho, hfuel f hf]
      · by_cases h40 : b = 40
        · subst h40
          obtain ⟨t, rest, hsuf, hfuel⟩ := step s1 (open_parens + 1) (token.WriteByte 40) (by simp only [List.length_cons]; omega)
          refine ⟨t, rest, hsuf.trans (List.suffix_cons _ _), ?_⟩
          intro fuel hf
          cases fuel with
          | zero => simp at hf
          | succ f => simp [stringLoop, hp, hfuel f hf]
        · by_cases h41 : b = 41
          · subst h41
            obtain ⟨t, rest, hsuf, hfuel⟩ := step s1 (open_parens - 1) (token.WriteByte 41) (by simp only [List.length_cons]; omega)
            refine ⟨t, rest, hsuf.trans (List.suffix_cons _ _), ?_⟩
            intro fuel hf
            cases fuel with
            | zero => simp at hf
            | succ f => simp [stringLoop, hp, hfuel f hf]
          · obtain ⟨t, rest, hsuf, hfuel⟩ := step s1 open_parens (token.WriteByte b) (by simp only [List.length_cons]; omega)
            refine ⟨t, rest, hsuf.trans (List.suffix_cons _ _), ?_⟩
            intro fuel hf
            cases fuel with
            | zero => simp at hf
            | succ f => simp [stringLoop, hp, hb, h40, h41, hfuel f hf]

theorem nameCodeLoop_suffix (n : Nat) : ∀ (i : Nat) (code s : List Nat),
    (nameCodeLoop n i code s).2 <:+ s := by
  induction n with
  | zero => intro i code s; simp [nameCodeLoop]
  | succ n ih =>
    intro i code s
    cases s with
    | nil => simp [nameCodeLoop]
    | cons b rest =>
      by_cases hx : IsHex b = true
      · simpa [nameCodeLoop, hx] using (ih (i + 1) (code.set i b) rest).trans (List.suffix_cons b rest)
      · simp [nameCodeLoop, hx]

theorem nameLoop_terminates (n : Nat) : ∀ s : List Nat, s.length ≤ n →
    ∀ (token : Token), ∃ t rest, rest <:+ s ∧
      ∀ fuel, s.length < fuel → nameLoop fuel token s = some (t, rest) := by
  induction n with
  | zero =>
    intro s hs token
    have h0 : s = [] := List.eq_nil_of_length_eq_zero (Nat.le_zero.mp hs)
    subst h0
    refine ⟨token, [], List.suffix_refl _, ?_⟩
    intro fuel hf
    cases fuel with
    | zero => simp at hf
    | succ f => simp [nameLoop]
  | succ n ih =>
    intro s hs token
    cases s with
    | nil =>
      refine ⟨token, [], List.suffix_refl _, ?_⟩
      intro fuel hf
      cases fuel with
      | zero => simp at hf
      | succ f => simp [nameLoop]
    | cons b s1 =>
      have hs1 : s1.length ≤ n := by simpa using hs
      by_cases hd : b ∈ delimiters ∨ b ∈ whitespace
      · refine ⟨token, b :: s1, List.suffix_refl _, ?_⟩
        intro fuel hf
        cases fuel with
        | zero => simp at hf
        | succ f => simp [nameLoop, hd]
      · by_cases hh : b = 35
        · subst hh
          have hsufC := nameCodeLoop_suffix 2 0 [48, 48] s1
          obtain ⟨t, rest, hsuf, hfuel⟩ := ih (nameCodeLoop 2 0 [48, 48] s1).2
            (by have := hsufC.length_le; omega)
            (token.WriteByte ((ParseUint (nameCodeLoop 2 0 [48, 48] s1).1 16 8).1 % 256))
          refine ⟨t, rest, (hsuf.trans hsufC).trans (List.suffix_cons _ _), ?_⟩
          intro fuel hf
          cases fuel with
          | zero => simp at hf
          | succ f =>
            have := hsufC.length_le
            simp only [List.length_cons] at hf
            simp [nameLoop, hd, hfuel f (by omega)]
        · obtain ⟨t, rest, hsuf, hfuel⟩ := ih s1 hs1 (token.WriteByte b)
          refine ⟨t, rest, hsuf.trans (List.suffix_cons _ _), ?_⟩
          intro fuel hf
          cases fuel with
          | zero => simp at hf
          | succ f =>
            simp only [List.length_cons] at hf
            simp [nameLoop, hd, hh, hfuel f (by omega)]

theorem ordinaryLoop_terminates (n : Nat) : ∀ s : List Nat, s.length ≤ n →
    ∀ (token : Token), ∃ t rest, rest <:+ s ∧
      ∀ fuel, s.length < fuel → ordinaryLoop fuel token s = some (t, rest) := by
  induction n with
  | zero =>
    intro s hs token
    have h0 : s = [] := List.eq_nil_of_length_eq_zero (Nat.le_zero.mp hs)
    subst h0
    refine ⟨token, [], List.suffix_refl _, ?_⟩
    intro fuel hf
    cases fuel with
    | zero => simp at hf
    | succ f => simp [ordinaryLoop]
  | succ n ih =>
    intro s hs token
    cases s with
    | nil =>
      refine ⟨token, [], List.suffix_refl _, ?_⟩
      intro fuel hf
      cases fuel with
      | zero => simp at hf
      | succ f => simp [ordinaryLoop]
    | cons b s1 =>
      have hs1 : s1.length ≤ n := by simpa using hs
      by_cases hd : b ∈ whitespace ∨ b ∈ delimiters
      · refine ⟨token, b :: s1, List.suffix_refl _, ?_⟩
        intro fuel hf
        cases fuel with
        | zero => simp at hf
        | succ f => simp [ordinaryLoop, hd]
      · obtain ⟨t, rest, hsuf, hfuel⟩ := ih s1 hs1
          ({ token with IsNumber := token.IsNumber && decide (48 ≤ b ∧ b ≤ 57) }.WriteByte b)
        refine ⟨t, rest, hsuf.trans (List.suffix_cons _ _), ?_⟩
        intro fuel hf
        cases fuel with
        | zero => simp at hf
        | succ f =>
          simp only [List.length_cons] at hf
          simp only [ordinaryLoop, hd, if_false]
          exact hfuel f (by omega)

theorem hexPairLoop_terminates (n : Nat) : ∀ s : List Nat, s.length ≤ n →
    ∀ (i : Nat) (code : List Nat) (token : Token), ∃ r, r.stream <:+ s ∧
      (i < 2 → r.stream.length < s.length ∨ ∃ t s1, r = .returned t s1) ∧
      ∀ fuel, s.length < fuel → hexPairLoop fuel i code token s = some r := by
  induction n with
  | zero =>
    intro s hs i code token
    have h0 : s = [] := List.eq_nil_of_length_eq_zero (Nat.le_zero.mp hs)
    subst h0
    by_cases hi : i < 2
    · refine ⟨.returned ((if i > 0 then token.WriteByte ((ParseUint code 16 8).1 % 256)
        else token).WriteByte 62) [], List.suffix_refl _, fun _ => Or.inr ⟨_, _, rfl⟩, ?_⟩
      intro fuel hf
      cases fuel with
      | zero => simp at hf
      | succ f => simp [hexPairLoop, hi, SkipWhitespace]
    · refine ⟨.pair code [], List.suffix_refl _, fun h => absurd h hi, ?_⟩
      intro fuel hf
      cases fuel with
      | zero => simp at hf
      | succ f => simp [hexPairLoop, hi]
  | succ n ih =>
    intro s hs i code token
    by_cases hi : i < 2
    swap
    · refine ⟨.pair code s, List.suffix_refl _, fun h => absurd h hi, ?_⟩
      intro fuel hf
      cases fuel with
      | zero => simp at hf
      | succ f => simp [hexPairLoop, hi]
    obtain ⟨r, s1, hsuf, hlt, hsw⟩ := SkipWhitespace_terminates s.length s (Nat.le_refl _)
    cases r with
    | error e =>
      refine ⟨.returned ((if i > 0 then token.WriteByte ((ParseUint code 16 8).1 % 256)
        else token).WriteByte 62) s1, hsuf, fun _ => Or.inr ⟨_, _, rfl⟩, ?_⟩
      intro fuel hf
      cases fuel with
      | zero => simp at hf
      | succ f => simp [hexPairLoop, hi, hsw (f + 1) hf]
    | ok b =>
      have hlt1 : s1.length < s.length := hlt ⟨b, rfl⟩
      by_cases hb : b = 62
      · refine ⟨.returned ((if i > 0 then token.WriteByte ((ParseUint code 16 8).1 % 256)
          else token).WriteByte 62) s1, hsuf, fun _ => Or.inr ⟨_, _, rfl⟩, ?_⟩
        intro fuel hf
        cases fuel with
        | zero => simp at hf
        | succ f => simp [hexPairLoop, hi, hsw (f + 1) hf, hb]
      · by_cases hx : IsHex b = true
        · obtain ⟨r, hsuf2, _, hfuel⟩ := ih s1 (by omega) (i + 1) (code.set i b) token
          refine ⟨r, hsuf2.trans hsuf, ?_, ?_⟩
          · intro _
            have := hsuf2.length_le
            left; omega
          · intro fuel hf
            cases fuel with
            | zero => simp at hf
            | succ f => simp [hexPairLoop, hi, hsw (f + 1) hf, hb, hx, hfuel f (by omega)]
        · obtain ⟨r, hsuf2, _, hfuel⟩ := ih s1 (by omega) i code token
          refine ⟨r, hsuf2.trans hsuf, ?_, ?_⟩
          · intro _
            have := hsuf2.length_le
            left; omega
          · intro fuel hf
            cases fuel with
            | zero => simp at hf
            | succ f => simp [hexPairLoop, hi, hsw (f + 1) hf, hb, hx, hfuel f (by omega)]

theorem hexLoop_terminates (n : Nat) : ∀ s : List Nat, s.length ≤ n →
    ∀ (token : Token), ∃ t rest, rest <:+ s ∧
      ∀ fuel, s.length < fuel → hexLoop fuel token s = some (t, rest) := by
  induction n with
  | zero =>
    intro s hs token
    have h0 : s = [] := List.eq_nil_of_length_eq_zero (Nat.le_zero.mp hs)
    subst h0
    refine ⟨token.WriteByte 62, [], List.suffix_refl _, ?_⟩
    intro fuel hf
    cases fuel with
    | zero => simp at hf
    | succ f => simp [hexLoop, hexPairLoop, SkipWhitespace]
  | succ n ih =>
    intro s hs token
    obtain ⟨r, hsuf, hlt, hpair⟩ := hexPairLoop_terminates s.length s (Nat.le_refl _) 0 [48, 48] token
    cases r with
    | returned t s1 =>
      refine ⟨t, s1, hsuf, ?_⟩
      intro fuel hf
      cases fuel with
      | zero => simp at hf
      | succ f => simp [hexLoop, hpair (f + 1) hf]
    | pair code s1 =>
      have hlt1 : s1.length < s.length := by
        rcases hlt (by decide) with h | ⟨t, s2, h⟩
        · exact h
        · cases h
      obtain ⟨t, rest, hsuf2, hfuel⟩ := ih s1 (by omega)
        (token.WriteByte ((ParseUint code 16 8).1 % 256))
      refine ⟨t, rest, hsuf2.trans hsuf, ?_⟩
      intro fuel hf
      cases fuel with
      | zero => simp at hf
      | succ f => simp [hexLoop, hpair (f + 1) hf, hfuel f (by omega)]

theorem ReadBytes_comment (rest : List Nat) :
    (ReadBytes 10 rest = (.error .EOF, []) ∧ firstSignificant true rest = none) ∨
    (∃ r1, ReadBytes 10 rest = (.ok (), r1) ∧
      firstSignificant true rest = firstSignificant false r1 ∧ r1 <:+ rest) := by
  induction rest with
  | nil => left; simp [ReadBytes, firstSignificant]
  | cons b rest ih =>
    by_cases hb : b = 10
    · right
      exact ⟨rest, by simp [ReadBytes, hb], by simp [firstSignificant, hb], List.suffix_cons _ _⟩
    · rcases ih with ⟨h1, h2⟩ | ⟨r1, h1, h2, h3⟩
      · left
        exact ⟨by simp [ReadBytes, hb, h1], by simp [firstSignificant, hb, h2]⟩
      · right
        exact ⟨r1, by simp [ReadBytes, hb, h1], by simp [firstSignificant, hb, h2],
          h3.trans (List.suffix_cons _ _)⟩

theorem SkipWhitespace_eq (n : Nat) : ∀ s : List Nat, s.length ≤ n →
    ∀ fuel, s.length < fuel →
      SkipWhitespace fuel s = some (skipResult (firstSignificant false s)) := by
  induction n with
  | zero =>
    intro s hs fuel hf
    have h0 : s = [] := List.eq_nil_of_length_eq_zero (Nat.le_zero.mp hs)
    subst h0
    cases fuel with
    | zero => simp at hf
    | succ f => simp [SkipWhitespace, firstSignificant, skipResult]
  | succ n ih =>
    intro s hs fuel hf
    cases fuel with
    | zero => simp at hf
    | succ f =>
      cases s with
      | nil => simp [SkipWhitespace, firstSignificant, skipResult]
      | cons b rest =>
        simp only [List.length_cons] at hs hf
        by_cases hw : b ∈ whitespace
        · simp only [SkipWhitespace, firstSignificant, hw, if_true]
          exact ih rest (by omega) f (by omega)
        · by_cases hc : b = 37
          · subst hc
            rcases ReadBytes_comment rest with ⟨h1, h2⟩ | ⟨r1, h1, h2, h3⟩
            · simp [SkipWhitespace, firstSignificant, hw, h1, h2, skipResult]
            · have := h3.length_le
              simp only [SkipWhitespace, firstSignificant, hw, h1, h2, if_true, if_false]
              exact ih r1 (by omega) f (by omega)
          · simp [SkipWhitespace, firstSignificant, hw, hc, skipResult]

theorem NextTokenFuel_total (s : List Nat) :
    ∃ r rest, rest <:+ s ∧
      ((firstSignificant false s = none ∧ r = .error .EOF) ∨
        (firstSignificant false s ≠ none ∧ rest.length < s.length ∧ ∃ t, r = .ok t)) ∧
      ∀ fuel, s.length < fuel → NextTokenFuel fuel s = some (r, rest) := by
  have hsw := SkipWhitespace_eq s.length s (Nat.le_refl _)
  obtain ⟨r0, s1, hsuf, hlt, hsw2⟩ := SkipWhitespace_terminates s.length s (Nat.le_refl _)
  have heq : skipResult (firstSignificant false s) = (r0, s1) := by
    have h1 := hsw (s.length + 1) (Nat.lt_succ_self _)
    have h2 := hsw2 (s.length + 1) (Nat.lt_succ_self _)
    rw [h1] at h2
    exact Option.some.inj h2
  cases hfs : firstSignificant false s with
  | none =>
    rw [hfs] at heq
    simp only [skipResult, Prod.mk.injEq] at heq
    obtain ⟨hr, hs1⟩ := heq
    subst hr; subst hs1
    refine ⟨.error .EOF, [], List.nil_suffix, Or.inl ⟨rfl, rfl⟩, ?_⟩
    intro fuel hf
    simp [NextTokenFuel, hsw2 fuel hf]
  | some p =>
    obtain ⟨b, s1'⟩ := p
    rw [hfs] at heq
    simp only [skipResult, Prod.mk.injEq] at heq
    obtain ⟨hr, hs1⟩ := heq
    subst hr; subst hs1
    have hlt1 : s1'.length < s.length := hlt ⟨b, rfl⟩
    -- every scanning loop ends on a suffix of the stream it starts from
    have wrap : ∀ (loop : Nat → Option (Token × List Nat)),
        (∃ t rest, rest <:+ s1' ∧ ∀ fuel, s1'.length < fuel → loop fuel = some (t, rest)) →
        ∃ r rest, rest <:+ s ∧ (rest.length < s.length ∧ ∃ t, r = Except.ok t) ∧
          ∀ fuel, s.length < fuel → okToken (loop fuel) = some (r, rest) := by
      intro loop ⟨t, rest, hsuf1, hfuel⟩
      refine ⟨.ok t, rest, hsuf1.trans hsuf, ⟨?_, t, rfl⟩, ?_⟩
      · have := hsuf1.length_le
        omega
      · intro fuel hf
        rw [hfuel fuel (by omega)]
        rfl
    have core : ∃ r rest, rest <:+ s ∧ (rest.length < s.length ∧ ∃ t, r = Except.ok t) ∧
        ∀ fuel, s.length < fuel → NextTokenFuel fuel s = some (r, rest) := by
      by_cases h1 : b = 91 ∨ b = 93
      · refine ⟨.ok (NewToken b), s1', hsuf, ⟨hlt1, _, rfl⟩, ?_⟩
        intro fuel hf
        simp [NextTokenFuel, hsw2 fuel hf, h1]
      by_cases h2 : b = 40
      · obtain ⟨r, rest, ha, hb, hc⟩ := wrap (fun fuel => stringLoop fuel 1 (NewToken b) s1')
          (stringLoop_terminates s1'.length s1' (Nat.le_refl _) 1 (NewToken b))
        refine ⟨r, rest, ha, hb, ?_⟩
        intro fuel hf
        simp only [NextTokenFuel, hsw2 fuel hf, h1, h2, if_true, if_false]
        simpa [h2] using hc fuel hf
      by_cases h3 : b = 47
      · obtain ⟨r, rest, ha, hb, hc⟩ := wrap (fun fuel => nameLoop fuel (NewToken b) s1')
          (nameLoop_terminates s1'.length s1' (Nat.le_refl _) (NewToken b))
        refine ⟨r, rest, ha, hb, ?_⟩
        intro fuel hf
        simp only [NextTokenFuel, hsw2 fuel hf, h1, h2, h3, if_true, if_false]
        simpa [h3] using hc fuel hf
      by_cases h4 : b = 60
      · cases hs1 : s1' with
        | nil =>
          subst hs1
          refine ⟨.ok ((NewToken b).WriteByte 62), [], List.nil_suffix, ⟨hlt1, _, rfl⟩, ?_⟩
          intro fuel hf
          simp [NextTokenFuel, hsw2 fuel hf, h4]
        | cons c s2 =>
          subst hs1
          by_cases h5 : c = 60
          · refine ⟨.ok ((NewToken b).WriteByte c), s2, (List.suffix_cons _ _).trans hsuf,
              ⟨by simp only [List.length_cons] at hlt1; omega, _, rfl⟩, ?_⟩
            intro fuel hf
            simp [NextTokenFuel, hsw2 fuel hf, h4, h5]
          · obtain ⟨r, rest, ha, hb, hc⟩ := wrap (fun fuel => hexLoop fuel (NewToken b) (c :: s2))
              (hexLoop_terminates (c :: s2).length (c :: s2) (Nat.le_refl _) (NewToken b))
            refine ⟨r, rest, ha, hb, ?_⟩
            intro fuel hf
            simp only [NextTokenFuel, hsw2 fuel hf, h1, h2, h3, h4, h5, if_true, if_false]
            simpa [h4] using hc fuel hf
      by_cases h6 : b = 62
      · cases hs1 : s1' with
        | nil =>
          subst hs1
          refine ⟨.ok ((NewToken b).WriteByte 62), [], List.nil_suffix, ⟨hlt1, _, rfl⟩, ?_⟩
          intro fuel hf
          simp [NextTokenFuel, hsw2 fuel hf, h6]
        | cons c s2 =>
          subst hs1
          by_cases h7 : c = 62
          · refine ⟨.ok ((NewToken b).WriteByte 62), s2, (List.suffix_cons _ _).trans hsuf,
              ⟨by simp only [List.length_cons] at hlt1; omega, _, rfl⟩, ?_⟩
            intro fuel hf
            simp [NextTokenFuel, hsw2 fuel hf, h6, h7]
          · refine ⟨.ok ((NewToken b).WriteByte 62), c :: s2, hsuf, ⟨hlt1, _, rfl⟩, ?_⟩
            intro fuel hf
            simp [NextTokenFuel, hsw2 fuel hf, h6, h7]
      · obtain ⟨r, rest, ha, hb, hc⟩ := wrap
          (fun fuel => ordinaryLoop fuel { NewToken b with IsNumber := decide (48 ≤ b ∧ b ≤ 57) } s1')
          (ordinaryLoop_terminates s1'.length s1' (Nat.le_refl _) _)
        refine ⟨r, rest, ha, hb, ?_⟩
        intro fuel hf
        simp only [NextTokenFuel, hsw2 fuel hf, h1, h2, h3, h4, h6, if_true, if_false]
        exact hc fuel hf
    obtain ⟨r, rest, ha, hb, hc⟩ := core
    exact ⟨r, rest, ha, Or.inr ⟨by simp, hb⟩, hc⟩

theorem NextToken_total (s : List Nat) :
    ∃ r rest, rest <:+ s ∧
      ((firstSignificant false s = none ∧ r = .error .EOF) ∨
        (firstSignificant false s ≠ none ∧ rest.length < s.length ∧ ∃ t, r = .ok t)) ∧
      NextToken s = some (r, rest) := by
  obtain ⟨r, rest, h1, h2, h3⟩ := NextTokenFuel_total s
  exact ⟨r, rest, h1, h2, h3 (s.length + 1) (Nat.lt_succ_self _)⟩

theorem afterCalls_reach_end (n : Nat) : ∀ s : List Nat, s.length ≤ n →
    ∃ k rest e rest1, k ≤ s.length ∧ afterCalls k s = some rest ∧
      NextToken rest = some (.error e, rest1) := by
  induction n with
  | zero =>
    intro s hs
    have h0 : s = [] := List.eq_nil_of_length_eq_zero (Nat.le_zero.mp hs)
    subst h0
    exact ⟨0, [], .EOF, [], Nat.le_refl _, rfl, rfl⟩
  | succ n ih =>
    intro s hs
    obtain ⟨r, rest, _, h2, h3⟩ := NextToken_total s
    rcases h2 with ⟨_, hr⟩ | ⟨_, hlt, t, hr⟩
    · subst hr
      exact ⟨0, s, .EOF, rest, Nat.zero_le _, rfl, h3⟩
    · subst hr
      obtain ⟨k, rest2, e, rest3, hk, hcalls, hend⟩ := ih rest (by omega)
      refine ⟨k + 1, rest2, e, rest3, by omega, ?_, hend⟩
      simp [afterCalls, h3, hcalls]

/-- C1: `NextToken` returns an error and no token exactly when the initial
`SkipWhitespace` fails, which is exactly when the unread input holds no byte outside
whitespace and `%`-to-LF comments; on every other input it returns a token and no error. -/
theorem NextToken_error_iff (s : List Nat) :
    ((∃ e rest, NextToken s = some (.error e, rest)) ↔
      ∃ e rest, SkipWhitespace (s.length + 1) s = some (.error e, rest)) ∧
    ((∃ e rest, NextToken s = some (.error e, rest)) ↔ firstSignificant false s = none) ∧
    (firstSignificant false s = none ∨ ∃ t rest, NextToken s = some (.ok t, rest)) := by
  have hsw := SkipWhitespace_eq s.length s (Nat.le_refl _) (s.length + 1) (Nat.lt_succ_self _)
  obtain ⟨r, rest, _, h2, h3⟩ := NextToken_total s
  rcases h2 with ⟨hnone, hr⟩ | ⟨hsome, _, t, hr⟩
  · subst hr
    refine ⟨⟨fun _ => ⟨.EOF, [], ?_⟩, fun _ => ⟨.EOF, rest, h3⟩⟩,
      ⟨fun _ => hnone, fun _ => ⟨.EOF, rest, h3⟩⟩, Or.inl hnone⟩
    rw [hsw, hnone]
    rfl
  · subst hr
    have hne : ¬ ∃ e rest1, NextToken s = some (Except.error e, rest1) := by
      rintro ⟨e, rest1, he⟩
      rw [h3] at he
      cases he
    refine ⟨⟨fun h => absurd h hne, ?_⟩, ⟨fun h => absurd h hne, fun h => absurd h hsome⟩,
      Or.inr ⟨t, rest, h3⟩⟩
    rintro ⟨e, rest1, he⟩
    rw [hsw] at he
    cases hfs : firstSignificant false s with
    | none => exact absurd hfs hsome
    | some p =>
      rw [hfs] at he
      obtain ⟨b, s1⟩ := p
      simp [skipResult] at he

/-- C2: on every finite input `NextToken` terminates: with any number of loop
iterations above the input length allowed it gives one and the same result; when that
result is a token the unread remainder is a proper suffix of the input; and some number
of successive calls, at most the number of input bytes, all return a token and lead to a
stream on which the next call reports the end of the stream. -/
theorem NextToken_terminates (s : List Nat) :
    (∃ r rest, NextToken s = some (r, rest) ∧
      (∀ fuel, s.length < fuel → NextTokenFuel fuel s = some (r, rest)) ∧
      ((∃ e, r = .error e) ∨ (rest <:+ s ∧ rest.length < s.length))) ∧
    (∃ k rest e rest1, k ≤ s.length ∧ afterCalls k s = some rest ∧
      NextToken rest = some (.error e, rest1)) := by
  refine ⟨?_, afterCalls_reach_end s.length s (Nat.le_refl _)⟩
  obtain ⟨r, rest, h1, h2, h3⟩ := NextTokenFuel_total s
  refine ⟨r, rest, h3 (s.length + 1) (Nat.lt_succ_self _), h3, ?_⟩
  rcases h2 with ⟨_, hr⟩ | ⟨_, hlt, _, _⟩
  · exact Or.inl ⟨_, hr⟩
  · exact Or.inr ⟨h1, hlt⟩

/-- Witness of C2 on the input `(\4`, a string that ends inside an octal escape. -/
theorem NextToken_terminates_witness :
    (∃ r rest, NextToken [40, 92, 52] = some (r, rest) ∧
      (∀ fuel, [40, 92, 52].length < fuel → NextTokenFuel fuel [40, 92, 52] = some (r, rest)) ∧
      ((∃ e, r = .error e) ∨ (rest <:+ [40, 92, 52] ∧ rest.length < [40, 92, 52].length))) ∧
    (∃ k rest e rest1, k ≤ [40, 92, 52].length ∧ afterCalls k [40, 92, 52] = some rest ∧
      NextToken rest = some (.error e, rest1)) :=
  NextToken_terminates [40, 92, 52]

theorem SkipWhitespace_significant (fuel b : Nat) (rest : List Nat)
    (hw : b ∉ whitespace) (hc : b ≠ 37) :
    SkipWhitespace (fuel + 1) (b :: rest) = some (.ok b, rest) := by
  simp [SkipWhitespace, hw, hc]

theorem stringLoop_balanced (body : List Nat) : ∀ (depth fuel : Nat) (token : Token)
    (rest : List Nat), 92 ∉ body → balanced depth body = true → body.length + 1 < fuel →
    stringLoop fuel (depth + 1) token (body ++ 41 :: rest) =
      some ({ token with written := token.written ++ body ++ [41] }, rest) := by
  induction body with
  | nil =>
    intro depth fuel token rest _ hbal hf
    have hd : depth = 0 := by simpa [balanced] using hbal
    subst hd
    match fuel, hf with
    | f + 2, _ => simp [stringLoop, Token.WriteByte]
  | cons b body ih =>
    intro depth fuel token rest hbs hbal hf
    have hb92 : b ≠ 92 := fun h => hbs (by simp [h])
    have hbody : 92 ∉ body := fun h => hbs (List.mem_cons_of_mem _ h)
    match fuel, hf with
    | f + 1, hf =>
      simp only [List.length_cons] at hf
      by_cases h40 : b = 40
      · subst h40
        have hbal1 : balanced (depth + 1) body = true := by simpa [balanced] using hbal
        have := ih (depth + 1) f (token.WriteByte 40) rest hbody hbal1 (by omega)
        simp [Token.WriteByte] at this
        simp [stringLoop, this, Token.WriteByte]
      · by_cases h41 : b = 41
        · subst h41
          have hbal1 : 0 < depth ∧ balanced (depth - 1) body = true := by
            simpa [balanced] using hbal
          have := ih (depth - 1) f (token.WriteByte 41) rest hbody hbal1.2 (by omega)
          have hd : depth - 1 + 1 = depth := by omega
          rw [hd] at this
          simp [Token.WriteByte] at this
          simp [stringLoop, this, Token.WriteByte]
        · have hbal1 : balanced depth body = true := by simpa [balanced, h40, h41] using hbal
          have := ih depth f (token.WriteByte b) rest hbody hbal1 (by omega)
          simp [Token.WriteByte] at this
          simp [stringLoop, hb92, h40, h41, this, Token.WriteByte]

/-- C3 (as stated, refuted): on `(abc)` the token is not `abc`, neither as the bytes
appended after the leading byte nor as all bytes of the token: the closing `)` is
appended as well. -/
theorem string_lexeme_counterexample :
    ¬ ∃ t rest, NextToken [40, 97, 98, 99, 41] = some (.ok t, rest) ∧
      (t.written = [97, 98, 99] ∨ t.bytes = [97, 98, 99]) := by
  rintro ⟨t, rest, h, hl⟩
  have h2 : NextToken [40, 97, 98, 99, 41] =
      some (.ok ⟨40, [97, 98, 99, 41], false⟩, []) := by decide
  rw [h2] at h
  cases h
  simp [Token.bytes] at hl

/-- C3 (amended): for a body without backslash and with balanced parentheses,
`NextToken` on `(` ++ body ++ `)` consumes the whole input and returns a token started by
`(` to which exactly the bytes of body followed by the closing `)` have been appended. -/
theorem string_balanced_lexeme (body : List Nat) (hbs : 92 ∉ body)
    (hbal : balanced 0 body = true) :
    ∃ t, NextToken (40 :: (body ++ [41])) = some (.ok t, []) ∧ t.first = 40 ∧
      t.written = body ++ [41] := by
  refine ⟨{ NewToken 40 with written := (NewToken 40).written ++ body ++ [41] }, ?_, rfl, ?_⟩
  · have hlen : (40 :: (body ++ [41])).length + 1 = body.length + 2 + 1 := by simp
    have hs := stringLoop_balanced body 0 (body.length + 2 + 1) (NewToken 40) []
      hbs hbal (by omega)
    simp only [Nat.zero_add] at hs
    have hsw := SkipWhitespace_significant (body.length + 2) 40 (body ++ [41])
      (by decide) (by decide)
    simp only [NextToken, NextTokenFuel, hlen, hsw]
    simp [hs, okToken]
  · simp [NewToken]

/-- Witness of C3 (amended) on the nested string `(a(b)c)`. -/
theorem string_balanced_lexeme_witness :
    ∃ t, NextToken (40 :: ([97, 40, 98, 41, 99] ++ [41])) = some (.ok t, []) ∧ t.first = 40 ∧
      t.written = [97, 40, 98, 41, 99] ++ [41] :=
  string_balanced_lexeme [97, 40, 98, 41, 99] (by decide) (by decide)

/-- C4 (as stated, refuted): a `>` followed by another byte gives the very token that
`>>` gives, so the lone `>` is not tokenised distinctly. -/
theorem lone_gt_counterexample :
    ∃ t, NextToken [62, 97] = some (.ok t, [97]) ∧ NextToken [62, 62] = some (.ok t, []) ∧
      NextToken [62] = some (.ok t, []) ∧ t.bytes = [62, 62] :=
  ⟨⟨62, [62], false⟩, by decide, by decide, by decide, by decide⟩

/-- C4 (amended): `<<` gives the token `<` with `<` appended and `>>` gives the token `>`
with `>` appended, both bytes consumed; a `>` whose next byte `b` is not `>`, or that
ends the stream, gives that same token as `>>`, and `b` is left unread. -/
theorem dictionary_markers (b : Nat) (rest : List Nat) (hb : b ≠ 62) :
    NextToken (60 :: 60 :: rest) = some (.ok ((NewToken 60).WriteByte 60), rest) ∧
    NextToken (62 :: 62 :: rest) = some (.ok ((NewToken 62).WriteByte 62), rest) ∧
    NextToken (62 :: b :: rest) = some (.ok ((NewToken 62).WriteByte 62), b :: rest) ∧
    NextToken [62] = some (.ok ((NewToken 62).WriteByte 62), []) ∧
    ((NewToken 60).WriteByte 60).bytes = [60, 60] ∧
    ((NewToken 62).WriteByte 62).bytes = [62, 62] := by
  refine ⟨?_, ?_, ?_, by decide, by decide, by decide⟩
  · simp [NextToken, NextTokenFuel, SkipWhitespace, whitespace]
  · simp [NextToken, NextTokenFuel, SkipWhitespace, whitespace]
  · simp [NextToken, NextTokenFuel, SkipWhitespace, whitespace, hb]

/-- Witness of C4 (amended) with the byte `a` after the `>`. -/
theorem dictionary_markers_witness :
    NextToken (60 :: 60 :: [97]) = some (.ok ((NewToken 60).WriteByte 60), [97]) ∧
    NextToken (62 :: 62 :: [97]) = some (.ok ((NewToken 62).WriteByte 62), [97]) ∧
    NextToken (62 :: 97 :: [97]) = some (.ok ((NewToken 62).WriteByte 62), 97 :: [97]) ∧
    NextToken [62] = some (.ok ((NewToken 62).WriteByte 62), []) ∧
    ((NewToken 60).WriteByte 60).bytes = [60, 60] ∧
    ((NewToken 62).WriteByte 62).bytes = [62, 62] :=
  dictionary_markers 97 [97] (by decide)

theorem IsHex_bounds (d : Nat) (h : IsHex d = true) :
    (48 ≤ d ∧ d ≤ 57) ∨ (97 ≤ d ∧ d ≤ 102) ∨ (65 ≤ d ∧ d ≤ 70) := by
  simpa [IsHex, or_assoc] using h

theorem IsHex_significant (d : Nat) (h : IsHex d = true) :
    d ∉ whitespace ∧ d ≠ 37 ∧ d ≠ 62 ∧ d ≠ 60 := by
  have hb := IsHex_bounds d h
  refine ⟨?_, by omega, by omega, by omega⟩
  simp only [whitespace, List.mem_cons, List.mem_singleton, List.not_mem_nil, or_false]
  omega

theorem digitVal_hex (d : Nat) (h : IsHex d = true) :
    digitVal d = some (hexValue d) ∧ hexValue d < 16 := by
  have hb := IsHex_bounds d h
  unfold digitVal hexValue
  split_ifs <;> simp <;> omega

theorem ParseUint_hex2 (d1 d2 : Nat) (h1 : IsHex d1 = true) (h2 : IsHex d2 = true) :
    (ParseUint [d1, d2] 16 8).1 % 256 = 16 * hexValue d1 + hexValue d2 := by
  obtain ⟨e1, b1⟩ := digitVal_hex d1 h1
  obtain ⟨e2, b2⟩ := digitVal_hex d2 h2
  have h255 : ¬ 255 < hexValue d1 * 16 + hexValue d2 := by omega
  simp [ParseUint, parseDigits, e1, e2, b1, b2, h255]
  omega

theorem ParseUint_hex1 (d : Nat) (h : IsHex d = true) :
    (ParseUint [d, 48] 16 8).1 % 256 = 16 * hexValue d := by
  have := ParseUint_hex2 d 48 h (by decide)
  simpa [hexValue] using this

theorem hexLoop_succ (fuel : Nat) (token : Token) (s : List Nat) :
    hexLoop (fuel + 1) token s =
      match hexPairLoop (fuel + 1) 0 [48, 48] token s with
      | none => none
      | some (.returned t s1) => some (t, s1)
      | some (.pair code s1) => hexLoop fuel (token.WriteByte ((ParseUint code 16 8).1 % 256)) s1 :=
  rfl

theorem hexPairLoop_digit (fuel i d : Nat) (code : List Nat) (token : Token) (rest : List Nat)
    (hi : i < 2) (hd : IsHex d = true) :
    hexPairLoop (fuel + 1) i code token (d :: rest) =
      hexPairLoop fuel (i + 1) (code.set i d) token rest := by
  obtain ⟨hw, h37, h62, _⟩ := IsHex_significant d hd
  simp [hexPairLoop, hi, SkipWhitespace_significant fuel d rest hw h37, h62, hd]

theorem hexPairLoop_close (fuel i : Nat) (code : List Nat) (token : Token) (rest : List Nat)
    (hi : i < 2) :
    hexPairLoop (fuel + 1) i code token (62 :: rest) =
      some (.returned ((if i > 0 then token.WriteByte ((ParseUint code 16 8).1 % 256)
        else token).WriteByte 62) rest) := by
  simp [hexPairLoop, hi, SkipWhitespace_significant fuel 62 rest (by decide) (by decide)]

theorem hexPairLoop_full (fuel : Nat) (code : List Nat) (token : Token) (s : List Nat) :
    hexPairLoop (fuel + 1) 2 code token s = some (.pair code s) := by
  simp [hexPairLoop]

theorem hexLoop_digits (n : Nat) : ∀ (ds : List Nat), ds.length ≤ n →
    (∀ d ∈ ds, IsHex d = true) → ∀ (fuel : Nat) (token : Token) (rest : List Nat),
    ds.length + 1 < fuel →
    hexLoop fuel token (ds ++ 62 :: rest) =
      some ({ token with written := token.written ++ hexPairs ds ++ [62] }, rest) := by
  induction n using Nat.strong_induction_on with
  | _ n ih =>
    intro ds hn hds fuel token rest hf
    match ds, hn, hds, hf with
    | [], _, _, hf =>
      match fuel, hf with
      | f + 1, _ =>
        rw [hexLoop_succ, List.nil_append, hexPairLoop_close f 0 _ _ _ (by decide)]
        simp [hexPairs, Token.WriteByte]
    | [d], _, hds, hf =>
      have hd : IsHex d = true := hds d (by simp)
      match fuel, hf with
      | f + 2, _ =>
        rw [hexLoop_succ, List.singleton_append, hexPairLoop_digit (f + 1) 0 d _ _ _ (by decide) hd,
          hexPairLoop_close f 1 _ _ _ (by decide)]
        simp [hexPairs, Token.WriteByte, ParseUint_hex1 d hd]
    | d1 :: d2 :: ds, hn, hds, hf =>
      have hd1 : IsHex d1 = true := hds d1 (by simp)
      have hd2 : IsHex d2 = true := hds d2 (by simp)
      simp only [List.length_cons] at hn hf
      match fuel, hf with
      | f + 3, hf =>
        have hrec := ih ds.length (by omega) ds (Nat.le_refl _)
          (fun d hd => hds d (by simp [hd])) (f + 2)
          (token.WriteByte (16 * hexValue d1 + hexValue d2)) rest (by omega)
        rw [hexLoop_succ, List.cons_append, List.cons_append,
          hexPairLoop_digit (f + 2) 0 d1 _ _ _ (by decide) hd1,
          hexPairLoop_digit (f + 1) 1 d2 _ _ _ (by decide) hd2, hexPairLoop_full]
        simp only [List.set_cons_zero, List.set_cons_succ, ParseUint_hex2 d1 d2 hd1 hd2]
        rw [hrec]
        simp [hexPairs, Token.WriteByte]

/-- C5: for every sequence `ds` of hex digits, `NextToken` on `<` ++ ds ++ `>` consumes
the whole input and returns a token started by `<` to which exactly the bytes encoded by
the digit pairs of `ds`, a final unpaired digit completed with low nibble 0, and then the
closing `>` have been appended. -/
theorem hex_string_decodes (ds : List Nat) (hds : ∀ d ∈ ds, IsHex d = true) :
    ∃ t, NextToken (60 :: (ds ++ [62])) = some (.ok t, []) ∧ t.first = 60 ∧
      t.written = hexPairs ds ++ [62] := by
  refine ⟨{ NewToken 60 with written := (NewToken 60).written ++ hexPairs ds ++ [62] }, ?_,
    rfl, by simp [NewToken]⟩
  have hlen : (60 :: (ds ++ [62])).length + 1 = ds.length + 2 + 1 := by simp
  have hs := hexLoop_digits ds.length ds (Nat.le_refl _) hds (ds.length + 2 + 1) (NewToken 60) []
    (by omega)
  have hsw := SkipWhitespace_significant (ds.length + 2) 60 (ds ++ [62]) (by decide) (by decide)
  simp only [NextToken, NextTokenFuel, hlen, hsw]
  cases ds with
  | nil =>
    rw [List.nil_append] at hs ⊢
    simp only [hs]
    simp [okToken]
  | cons d ds =>
    have hd : d ≠ 60 := (IsHex_significant d (hds d (by simp))).2.2.2
    rw [List.cons_append] at hs ⊢
    simp only [hs]
    simp [hd, okToken]

/-- Witness of C5: `<48656C6C6F>` carries the bytes of `Hello`, and `<4>` the byte 0x40. -/
theorem hex_string_decodes_witness :
    (∃ t, NextToken [60, 52, 56, 54, 53, 54, 67, 54, 67, 54, 70, 62] = some (.ok t, []) ∧
      t.first = 60 ∧ t.written = [72, 101, 108, 108, 111, 62]) ∧
    (∃ t, NextToken [60, 52, 62] = some (.ok t, []) ∧ t.first = 60 ∧ t.written = [64, 62]) :=
  ⟨hex_string_decodes [52, 56, 54, 53, 54, 67, 54, 67, 54, 70] (by decide),
    hex_string_decodes [52] (by decide)⟩

theorem ordinaryLoop_spec (s : List Nat) : ∀ (fuel : Nat) (token : Token), s.length < fuel →
    ∃ t rest app, ordinaryLoop fuel token s = some (t, rest) ∧ t.first = token.first ∧
      t.written = token.written ++ app ∧
      (t.IsNumber = true ↔ token.IsNumber = true ∧ ∀ c ∈ app, 48 ≤ c ∧ c ≤ 57) := by
  induction s with
  | nil =>
    intro fuel token hf
    match fuel, hf with
    | f + 1, _ => exact ⟨token, [], [], by simp [ordinaryLoop], rfl, by simp, by simp⟩
  | cons b s1 ih =>
    intro fuel token hf
    match fuel, hf with
    | f + 1, hf =>
      simp only [List.length_cons] at hf
      by_cases hd : b ∈ whitespace ∨ b ∈ delimiters
      · exact ⟨token, b :: s1, [], by simp [ordinaryLoop, hd], rfl, by simp, by simp⟩
      · obtain ⟨t, rest, app, h1, h2, h3, h4⟩ := ih f
          ({ token with IsNumber := token.IsNumber && decide (48 ≤ b ∧ b ≤ 57) }.WriteByte b)
          (by omega)
        refine ⟨t, rest, b :: app, ?_, ?_, ?_, ?_⟩
        · simp only [ordinaryLoop, hd, if_false]
          exact h1
        · simpa [Token.WriteByte] using h2
        · simpa [Token.WriteByte] using h3
        · rw [h4]
          simp [Token.WriteByte, and_assoc]

theorem firstSignificant_skip (s : List Nat) (b : Nat) (s1 : List Nat)
    (h : firstSignificant false s = some (b, s1)) :
    s1.length < s.length ∧
      ∀ fuel, s.length < fuel → SkipWhitespace fuel s = some (.ok b, s1) := by
  have hsw := SkipWhitespace_eq s.length s (Nat.le_refl _)
  obtain ⟨r0, s2, _, hlt, hsw2⟩ := SkipWhitespace_terminates s.length s (Nat.le_refl _)
  have heq : (r0, s2) = (Except.ok b, s1) := by
    have h1 := hsw (s.length + 1) (Nat.lt_succ_self _)
    have h2 := hsw2 (s.length + 1) (Nat.lt_succ_self _)
    rw [h1, h] at h2
    exact (Option.some.inj h2).symm
  cases heq
  exact ⟨hlt ⟨b, rfl⟩, hsw2⟩

theorem ordinaryLoop_not_number (fuel : Nat) : ∀ (token : Token) (input : List Nat) (t : Token)
    (rest : List Nat), ordinaryLoop fuel token input = some (t, rest) →
    token.IsNumber = false → t.IsNumber = false := by
  induction fuel with
  | zero => intro token input t rest h; simp [ordinaryLoop] at h
  | succ f ih =>
    intro token input t rest h hn
    cases input with
    | nil =>
      simp only [ordinaryLoop, Option.some.injEq, Prod.mk.injEq] at h
      rw [← h.1]
      exact hn
    | cons b s1 =>
      by_cases hd : b ∈ whitespace ∨ b ∈ delimiters
      · simp only [ordinaryLoop, hd, if_true, Option.some.injEq, Prod.mk.injEq] at h
        rw [← h.1]
        exact hn
      · simp only [ordinaryLoop, hd, if_false] at h
        exact ih _ s1 t rest h (by simp [Token.WriteByte, hn])

/-- C6: for an ordinary token (leading significant byte `b` none of `[ ] ( / < >`)
`NextToken` returns a token started by `b` whose is-number flag is true exactly when
every byte of the token, the leading byte included, is an ASCII digit; and in the scan of
an ordinary token a flag that is false stays false whatever bytes follow. -/
theorem ordinary_is_number (s : List Nat) (b : Nat) (s1 : List Nat)
    (hlead : firstSignificant false s = some (b, s1)) (hb : b ∉ [91, 93, 40, 47, 60, 62]) :
    (∃ t rest, NextToken s = some (.ok t, rest) ∧ t.first = b ∧
      (t.IsNumber = true ↔ ∀ c ∈ t.bytes, 48 ≤ c ∧ c ≤ 57)) ∧
    (∀ (fuel : Nat) (token : Token) (input : List Nat) (t : Token) (rest : List Nat),
      ordinaryLoop fuel token input = some (t, rest) → token.IsNumber = false →
      t.IsNumber = false) := by
  refine ⟨?_, fun fuel => ordinaryLoop_not_number fuel⟩
  simp only [List.mem_cons, List.mem_singleton, List.not_mem_nil, or_false, not_or] at hb
  obtain ⟨h91, h93, h40, h47, h60, h62⟩ := hb
  obtain ⟨hlt, hsw⟩ := firstSignificant_skip s b s1 hlead
  obtain ⟨t, rest, app, h1, h2, h3, h4⟩ := ordinaryLoop_spec s1 (s.length + 1)
    ⟨b, [], decide (48 ≤ b ∧ b ≤ 57)⟩ (by omega)
  simp only [List.nil_append] at h2 h3 h4
  refine ⟨t, rest, ?_, h2, ?_⟩
  · simp only [NextToken, NextTokenFuel, hsw (s.length + 1) (Nat.lt_succ_self _), h91, h93, h40,
      h47, h60, h62, or_self, if_false]
    exact congrArg okToken h1
  · have hbytes : t.bytes = b :: app := by simp [Token.bytes, h2, h3]
    rw [h4, hbytes]
    simp

/-- Witness of C6: `123` after a blank is flagged as a number, `12a` and `-5` are not. -/
theorem ordinary_is_number_witness :
    ((∃ t rest, NextToken [32, 49, 50, 51] = some (.ok t, rest) ∧ t.first = 49 ∧
      (t.IsNumber = true ↔ ∀ c ∈ t.bytes, 48 ≤ c ∧ c ≤ 57)) ∧
    (∀ (fuel : Nat) (token : Token) (input : List Nat) (t : Token) (rest : List Nat),
      ordinaryLoop fuel token input = some (t, rest) → token.IsNumber = false →
      t.IsNumber = false)) ∧
    (∃ t, NextToken [49, 50, 51] = some (.ok t, []) ∧ t.bytes = [49, 50, 51] ∧
      t.IsNumber = true) ∧
    (∃ t, NextToken [49, 50, 97] = some (.ok t, []) ∧ t.bytes = [49, 50, 97] ∧
      t.IsNumber = false) ∧
    (∃ t, NextToken [45, 53] = some (.ok t, []) ∧ t.bytes = [45, 53] ∧ t.IsNumber = false) :=
  ⟨ordinary_is_number [32, 49, 50, 51] 49 [50, 51] (by decide) (by decide),
    ⟨⟨49, [50, 51], true⟩, by decide, by decide, by decide⟩,
    ⟨⟨49, [50, 97], false⟩, by decide, by decide, by decide⟩,
    ⟨⟨45, [53], false⟩, by decide, by decide, by decide⟩⟩

theorem nameEscapeValue_two (d1 d2 : Nat) (h1 : IsHex d1 = true) (h2 : IsHex d2 = true) :
    (ParseUint [d1, d2] 16 8).1 % 256 = nameEscapeValue [d1, d2] := by
  rw [ParseUint_hex2 d1 d2 h1 h2]
  simp [nameEscapeValue, overwriteCode, numeralValue]

theorem nameEscapeValue_one (d : Nat) (h : IsHex d = true) :
    (ParseUint [d, 48] 16 8).1 % 256 = nameEscapeValue [d] := by
  rw [ParseUint_hex1 d h]
  simp [nameEscapeValue, overwriteCode, numeralValue, hexValue]

/-- C7 (as stated, refuted): the name `/A#42B` does not read `AB`: `#42` gives `B` and the
`B` after the escape is appended too, so the appended bytes are `ABB`. -/
theorem name_example_counterexample :
    NextToken [47, 65, 35, 52, 50, 66] = some (.ok { NewToken 47 with written := [65, 66, 66] }, []) ∧
    ¬ ∃ t rest, NextToken [47, 65, 35, 52, 50, 66] = some (.ok t, rest) ∧
      (t.written = [65, 66] ∨ t.bytes = [65, 66]) := by
  have h : NextToken [47, 65, 35, 52, 50, 66] = some (.ok { NewToken 47 with written := [65, 66, 66] }, []) := by
    decide
  refine ⟨h, ?_⟩
  rintro ⟨t, rest, ht, hl⟩
  rw [h] at ht
  cases ht
  simp [Token.bytes] at hl

/-- C7 (amended): inside a name a `#` followed by the hex digits `hs` (at most 2, the run ended by
the end of the stream or by a byte that is no hex digit when shorter) appends exactly one
byte, the value of the code `00` overwritten left to right with `hs`, and the scan of the
name goes on with the bytes after the digits, also when the decoded byte is whitespace or
a delimiter.  So `/A#42` reads `AB`, `#4` decodes to 0x40, a bare `#` to 0, and `#20`
does not end the name. -/
theorem name_hex_escape (fuel : Nat) (token : Token) (hs rest : List Nat)
    (hall : ∀ d ∈ hs, IsHex d = true) (hlen : hs.length ≤ 2)
    (hstop : hs.length = 2 ∨ rest = [] ∨ ∃ c rest1, rest = c :: rest1 ∧ IsHex c = false) :
    nameLoop (fuel + 1) token (35 :: (hs ++ rest)) =
      nameLoop fuel (token.WriteByte (nameEscapeValue hs)) rest ∧
    NextToken [47, 65, 35, 52, 50] = some (.ok { NewToken 47 with written := [65, 66] }, []) ∧
    NextToken [47, 35, 52] = some (.ok { NewToken 47 with written := [64] }, []) ∧
    NextToken [47, 35, 32] = some (.ok { NewToken 47 with written := [0] }, [32]) ∧
    NextToken [47, 97, 35, 50, 48, 98] = some (.ok { NewToken 47 with written := [97, 32, 98] }, []) := by
  refine ⟨?_, by decide, by decide, by decide, by decide⟩
  have h35 : ¬ ((35 : Nat) ∈ delimiters ∨ (35 : Nat) ∈ whitespace) := by decide
  have hcode : nameCodeLoop 2 0 [48, 48] (hs ++ rest) = (overwriteCode hs, rest) ∧
      (ParseUint (overwriteCode hs) 16 8).1 % 256 = nameEscapeValue hs := by
    match hs, hlen, hall, hstop with
    | [], _, _, hstop =>
      refine ⟨?_, by decide⟩
      rcases hstop with h | h | ⟨c, rest1, h, hc⟩
      · simp at h
      · subst h; simp [nameCodeLoop, overwriteCode]
      · subst h; simp [nameCodeLoop, overwriteCode, hc]
    | [d], _, hall, hstop =>
      have hd : IsHex d = true := hall d (by simp)
      refine ⟨?_, nameEscapeValue_one d hd⟩
      rcases hstop with h | h | ⟨c, rest1, h, hc⟩
      · simp at h
      · subst h; simp [nameCodeLoop, overwriteCode, hd]
      · subst h; simp [nameCodeLoop, overwriteCode, hd, hc]
    | [d1, d2], _, hall, _ =>
      have hd1 : IsHex d1 = true := hall d1 (by simp)
      have hd2 : IsHex d2 = true := hall d2 (by simp)
      exact ⟨by simp [nameCodeLoop, overwriteCode, hd1, hd2], nameEscapeValue_two d1 d2 hd1 hd2⟩
    | _ :: _ :: _ :: _, hlen, _, _ => simp at hlen
  simp only [nameLoop, h35, if_false, if_true, hcode.1, hcode.2]

/-- Witness of C7: `#4` at the end of the stream. -/
theorem name_hex_escape_witness :
    nameLoop (1 + 1) (NewToken 47) (35 :: ([52] ++ [])) =
      nameLoop 1 ((NewToken 47).WriteByte (nameEscapeValue [52])) [] ∧
    NextToken [47, 65, 35, 52, 50] = some (.ok { NewToken 47 with written := [65, 66] }, []) ∧
    NextToken [47, 35, 52] = some (.ok { NewToken 47 with written := [64] }, []) ∧
    NextToken [47, 35, 32] = some (.ok { NewToken 47 with written := [0] }, [32]) ∧
    NextToken [47, 97, 35, 50, 48, 98] = some (.ok { NewToken 47 with written := [97, 32, 98] }, []) :=
  name_hex_escape 1 (NewToken 47) [52] [] (by decide) (by decide) (Or.inr (Or.inl rfl))

theorem resolve_aux (objects : Int → IndirectObject) (position : Int → Int → Int)
    (nums : List Int) (hfin : ∀ n r, (objects n).Value = .reference r → n ∈ nums) (m : Nat) :
    ∀ (offset : Int) (reference : Reference) (visited : List Int),
      (nums.toFinset \ visited.toFinset).card ≤ m →
      ∃ object offset1 added, added.Nodup ∧ (∀ x ∈ added, x ∉ visited) ∧ added.length ≤ m + 1 ∧
        (∀ fuel, added.length + 1 ≤ fuel →
          resolve fuel ⟨offset, objects, position⟩ reference visited =
            some (object, ⟨offset1, objects, position⟩, added ++ visited)) ∧
        (∀ fuel, fuel < added.length →
          resolve fuel ⟨offset, objects, position⟩ reference visited = none) := by
  induction m using Nat.strong_induction_on with
  | _ m ih =>
    intro offset reference visited hm
    by_cases hv : reference.Number ∈ visited
    · refine ⟨NewIndirectObject reference.Number, offset, [], List.nodup_nil, by simp, by simp,
        ?_, by simp⟩
      intro fuel hf
      match fuel, hf with
      | f + 1, _ => simp [resolve, hv]
    · have terminal : (∀ r, (objects reference.Number).Value ≠ .reference r) →
          ∃ object offset1 added, added.Nodup ∧ (∀ x ∈ added, x ∉ visited) ∧
            added.length ≤ m + 1 ∧
            (∀ fuel, added.length + 1 ≤ fuel →
              resolve fuel ⟨offset, objects, position⟩ reference visited =
                some (object, ⟨offset1, objects, position⟩, added ++ visited)) ∧
            (∀ fuel, fuel < added.length →
              resolve fuel ⟨offset, objects, position⟩ reference visited = none) := by
        intro hnr
        refine ⟨objects reference.Number, position reference.Number offset, [reference.Number],
          by simp, by simpa using hv, by simp, ?_, ?_⟩
        · intro fuel hf
          match fuel, hf with
          | f + 1, _ =>
            cases hval : (objects reference.Number).Value with
            | reference r => exact absurd hval (hnr r)
            | null => simp [resolve, hv, Pdf.GetObject, hval]
            | other p => simp [resolve, hv, Pdf.GetObject, hval]
        · intro fuel hf
          have h0 : fuel = 0 := by simpa using hf
          subst h0
          rfl
      cases hval : (objects reference.Number).Value with
      | null => exact terminal (fun r h => by rw [hval] at h; cases h)
      | other p => exact terminal (fun r h => by rw [hval] at h; cases h)
      | reference ref =>
        have hn : reference.Number ∈ nums := hfin _ _ hval
        have hmem : reference.Number ∈ nums.toFinset \ visited.toFinset := by simp [hn, hv]
        have hcard : (nums.toFinset \ (reference.Number :: visited).toFinset).card + 1 =
            (nums.toFinset \ visited.toFinset).card := by
          rw [List.toFinset_cons, Finset.sdiff_insert, Finset.card_erase_of_mem hmem]
          have : 0 < (nums.toFinset \ visited.toFinset).card := Finset.card_pos.mpr ⟨_, hmem⟩
          omega
        obtain ⟨object, offset1, added, hnd, hdisj, hlen, hfuel, hlow⟩ :=
          ih (m - 1) (by omega) (position reference.Number offset) ref
            (reference.Number :: visited) (by omega)
        refine ⟨object, offset1, added ++ [reference.Number], ?_, ?_, ?_, ?_, ?_⟩
        · rw [List.nodup_append]
          refine ⟨hnd, by simp, ?_⟩
          intro x hx hx2
          have := hdisj x hx
          simp at hx2
          simp [hx2] at this
        · intro x hx
          rcases List.mem_append.mp hx with h | h
          · exact fun hxv => hdisj x h (List.mem_cons_of_mem _ hxv)
          · simp at h
            subst h
            exact hv
        · simp only [List.length_append, List.length_singleton]
          omega
        · intro fuel hf
          simp only [List.length_append, List.length_singleton] at hf
          match fuel, hf with
          | f + 1, hf =>
            simp only [resolve, hv, if_false, Pdf.GetObject, hval]
            rw [hfuel f (by omega)]
            simp
        · intro fuel hf
          simp only [List.length_append, List.length_singleton] at hf
          match fuel with
          | 0 => rfl
          | f + 1 =>
            simp only [resolve, hv, if_false, Pdf.GetObject, hval]
            exact hlow f (by omega)

/-- C8: for a document in which the object numbers whose value is a reference all lie in
a finite list `nums`, the walk `resolve` started with an empty visited set terminates,
whatever the references are: it ends with a visited set of pairwise distinct numbers, at
most one more than there are numbers in `nums`; a recursion depth of one more than the
number of visited numbers is enough, and a depth below that number is not. -/
theorem resolve_terminates (pdf : Pdf) (nums : List Int)
    (hfin : ∀ n r, (pdf.objects n).Value = .reference r → n ∈ nums) (reference : Reference) :
    ∃ object pdf1 visited,
      (∀ fuel, visited.length + 1 ≤ fuel →
        resolve fuel pdf reference [] = some (object, pdf1, visited)) ∧
      (∀ fuel, fuel < visited.length → resolve fuel pdf reference [] = none) ∧
      visited.Nodup ∧ visited.length ≤ nums.length + 1 := by
  obtain ⟨object, offset1, added, hnd, _, hlen, hfuel, hlow⟩ :=
    resolve_aux pdf.objects pdf.position nums hfin (nums.toFinset \ ([] : List Int).toFinset).card
      pdf.offset reference [] (Nat.le_refl _)
  refine ⟨object, ⟨offset1, pdf.objects, pdf.position⟩, added, ?_, ?_, hnd, ?_⟩
  · intro fuel hf
    simpa using hfuel fuel hf
  · intro fuel hf
    exact hlow fuel hf
  · have := List.toFinset_card_le nums
    simp only [List.toFinset_nil, Finset.sdiff_empty] at hlen
    omega

theorem cycleDocument_refs (n : Int) (r : Reference)
    (h : (cycleDocument.objects n).Value = .reference r) : n ∈ [1, 2] := by
  simp only [cycleDocument] at h
  split_ifs at h with h1 h2
  · simp [h1]
  · simp [h2]

/-- Witness of C8 on the document of the cycle example. -/
theorem resolve_terminates_witness :
    ∃ object pdf1 visited,
      (∀ fuel, visited.length + 1 ≤ fuel →
        resolve fuel cycleDocument ⟨1, 0⟩ [] = some (object, pdf1, visited)) ∧
      (∀ fuel, fuel < visited.length → resolve fuel cycleDocument ⟨1, 0⟩ [] = none) ∧
      visited.Nodup ∧ visited.length ≤ [1, 2].length + 1 :=
  resolve_terminates cycleDocument [1, 2] cycleDocument_refs ⟨1, 0⟩

theorem refTarget_eq (objects : Int → IndirectObject) (n back : Int)
    (h : refTarget objects n = some back) :
    ∃ ref, (objects n).Value = .reference ref ∧ ref.Number = back := by
  unfold refTarget at h
  split at h
  · rename_i ref href
    exact ⟨ref, href, by simpa using h⟩
  · cases h

theorem resolve_chain (objects : Int → IndirectObject) (position : Int → Int → Int)
    (back : Int) (rest : List Int) :
    ∀ (n : Int) (offset : Int) (reference : Reference) (visited : List Int),
      reference.Number = n → (n :: rest).Nodup → (∀ x ∈ n :: rest, x ∉ visited) →
      followsChain objects (n :: rest) back = true →
      (back ∈ n :: rest ∨ back ∈ visited) →
      ∃ offset1, ∀ fuel, rest.length + 2 ≤ fuel →
        resolve fuel ⟨offset, objects, position⟩ reference visited =
          some (NewIndirectObject back, ⟨offset1, objects, position⟩,
            (n :: rest).reverse ++ visited) := by
  induction rest with
  | nil =>
    intro n offset reference visited hnum _ hdisj hchain hback
    subst hnum
    have hv : reference.Number ∉ visited := hdisj _ (by simp)
    obtain ⟨ref, href, hrn⟩ := refTarget_eq objects reference.Number back
      (by simpa [followsChain] using hchain)
    subst hrn
    have hb : ref.Number = reference.Number ∨ ref.Number ∈ visited := by simpa using hback
    refine ⟨position reference.Number offset, ?_⟩
    intro fuel hf
    match fuel, hf with
    | f + 2, _ =>
      simp [resolve, hv, Pdf.GetObject, href, hb]
  | cons n1 rest ih =>
    intro n offset reference visited hnum hnd hdisj hchain hback
    subst hnum
    have hv : reference.Number ∉ visited := hdisj _ (by simp)
    have hchain2 : refTarget objects reference.Number = some n1 ∧
        followsChain objects (n1 :: rest) back = true := by
      simpa [followsChain] using hchain
    obtain ⟨ref, href, hrn⟩ := refTarget_eq objects reference.Number n1 hchain2.1
    have hnd2 : (n1 :: rest).Nodup := (List.nodup_cons.mp hnd).2
    have hn : reference.Number ∉ n1 :: rest := (List.nodup_cons.mp hnd).1
    obtain ⟨offset1, hfuel⟩ := ih n1 (position reference.Number offset) ref
      (reference.Number :: visited) hrn hnd2
      (by
        intro x hx hxv
        rcases List.mem_cons.mp hxv with h | h
        · exact hn (h ▸ hx)
        · exact hdisj x (List.mem_cons_of_mem _ hx) h)
      hchain2.2
      (by
        rcases hback with h | h
        · rcases List.mem_cons.mp h with h1 | h1
          · right; simp [h1]
          · left; exact h1
        · right; exact List.mem_cons_of_mem _ h)
    refine ⟨offset1, ?_⟩
    intro fuel hf
    simp only [List.length_cons] at hf
    match fuel, hf with
    | f + 1, hf =>
      simp only [resolve, hv, if_false, Pdf.GetObject, href]
      rw [hfuel f (by omega)]
      simp

/-- C9: when the chain of references followed from a reference (objects `n :: rest`,
pairwise distinct, each referring to the next) returns to a number `back` of that chain,
resolution yields the placeholder for `back`, which carries that number, no value and no
stream, and nothing fails: `Resolve` returns the absent value and `ResolveStream` the
absent stream. -/
theorem resolve_cycle_placeholder (pdf : Pdf) (n : Int) (rest : List Int) (back : Int)
    (reference : Reference) (hnum : reference.Number = n) (hnd : (n :: rest).Nodup)
    (hchain : followsChain pdf.objects (n :: rest) back = true) (hback : back ∈ n :: rest) :
    ∃ pdf1 pdf2,
      (∀ fuel, rest.length + 2 ≤ fuel →
        resolve fuel pdf reference [] =
          some (NewIndirectObject back, pdf1, (n :: rest).reverse) ∧
        Resolve fuel pdf reference = some (.null, pdf2) ∧
        ResolveStream fuel pdf reference = some (none, pdf2)) ∧
      (NewIndirectObject back).Number = back ∧ (NewIndirectObject back).Value = .null ∧
      (NewIndirectObject back).Stream = none := by
  obtain ⟨offset1, hfuel⟩ := resolve_chain pdf.objects pdf.position back rest n pdf.offset
    reference [] hnum hnd (by simp) hchain (Or.inl hback)
  refine ⟨⟨offset1, pdf.objects, pdf.position⟩,
    Pdf.Seek ⟨offset1, pdf.objects, pdf.position⟩ pdf.CurrentOffset, ?_, rfl, rfl, rfl⟩
  intro fuel hf
  have h := hfuel fuel hf
  simp only [List.append_nil] at h
  have h2 : resolve fuel pdf reference [] =
      some (NewIndirectObject back, ⟨offset1, pdf.objects, pdf.position⟩, (n :: rest).reverse) := h
  refine ⟨h2, ?_, ?_⟩
  · simp only [Resolve, h2]
    rfl
  · simp only [ResolveStream, h2]
    rfl

/-- Witness of C9 on the cycle example: resolving a reference to object 1 yields the
placeholder for object 1, resolving a reference to object 2 the placeholder for 2. -/
theorem resolve_cycle_placeholder_witness :
    (∃ pdf1 pdf2,
      (∀ fuel, [2].length + 2 ≤ fuel →
        resolve fuel cycleDocument ⟨1, 0⟩ [] =
          some (NewIndirectObject 1, pdf1, ((1 : Int) :: [2]).reverse) ∧
        Resolve fuel cycleDocument ⟨1, 0⟩ = some (.null, pdf2) ∧
        ResolveStream fuel cycleDocument ⟨1, 0⟩ = some (none, pdf2)) ∧
      (NewIndirectObject 1).Number = 1 ∧ (NewIndirectObject 1).Value = .null ∧
      (NewIndirectObject 1).Stream = none) ∧
    (∃ pdf1 pdf2,
      (∀ fuel, [1].length + 2 ≤ fuel →
        resolve fuel cycleDocument ⟨2, 0⟩ [] =
          some (NewIndirectObject 2, pdf1, ((2 : Int) :: [1]).reverse) ∧
        Resolve fuel cycleDocument ⟨2, 0⟩ = some (.null, pdf2) ∧
        ResolveStream fuel cycleDocument ⟨2, 0⟩ = some (none, pdf2)) ∧
      (NewIndirectObject 2).Number = 2 ∧ (NewIndirectObject 2).Value = .null ∧
      (NewIndirectObject 2).Stream = none) :=
  ⟨resolve_cycle_placeholder cycleDocument 1 [2] 1 ⟨1, 0⟩ rfl (by decide) (by decide) (by decide),
    resolve_cycle_placeholder cycleDocument 2 [1] 2 ⟨2, 0⟩ rfl (by decide) (by decide) (by decide)⟩

/-- C10: for a document in which the object numbers whose value is a reference all lie in
a finite list `nums`, `Resolve` and `ResolveStream` return, and the current offset of the
document after the call is the current offset before it, wherever `GetObject` moved the
cursor in between and whether the walk ended on an object or at the cycle break. -/
theorem Resolve_restores_offset (pdf : Pdf) (nums : List Int)
    (hfin : ∀ n r, (pdf.objects n).Value = .reference r → n ∈ nums) (reference : Reference) :
    ∃ value stream pdf1,
      (∀ fuel, nums.length + 2 ≤ fuel →
        Resolve fuel pdf reference = some (value, pdf1) ∧
        ResolveStream fuel pdf reference = some (stream, pdf1)) ∧
      pdf1.CurrentOffset = pdf.CurrentOffset := by
  obtain ⟨object, offset1, added, _, _, hlen, hfuel, _⟩ :=
    resolve_aux pdf.objects pdf.position nums hfin (nums.toFinset \ ([] : List Int).toFinset).card
      pdf.offset reference [] (Nat.le_refl _)
  refine ⟨object.Value, object.Stream,
    Pdf.Seek ⟨offset1, pdf.objects, pdf.position⟩ pdf.CurrentOffset, ?_, rfl⟩
  intro fuel hf
  have hcard := List.toFinset_card_le nums
  simp only [List.toFinset_nil, Finset.sdiff_empty] at hlen
  have h := hfuel fuel (by omega)
  have h2 : resolve fuel pdf reference [] =
      some (object, ⟨offset1, pdf.objects, pdf.position⟩, added ++ []) := h
  exact ⟨by simp only [Resolve, h2], by simp only [ResolveStream, h2]⟩

/-- Witness of C10 on the document of the cycle example, whose cursor starts at offset 7
and is moved to offsets 100 and 200 during the resolution. -/
theorem Resolve_restores_offset_witness :
    ∃ value stream pdf1,
      (∀ fuel, [1, 2].length + 2 ≤ fuel →
        Resolve fuel cycleDocument ⟨1, 0⟩ = some (value, pdf1) ∧
        ResolveStream fuel cycleDocument ⟨1, 0⟩ = some (stream, pdf1)) ∧
      pdf1.CurrentOffset = cycleDocument.CurrentOffset :=
  Resolve_restores_offset cycleDocument [1, 2] cycleDocument_refs ⟨1, 0⟩

theorem refTarget_none (objects : Int → IndirectObject) (n : Int)
    (h : refTarget objects n = none) : ∀ ref, (objects n).Value ≠ .reference ref := by
  intro ref href
  simp [refTarget, href] at h

theorem resolve_path (objects : Int → IndirectObject) (position : Int → Int → Int)
    (rest : List Int) :
    ∀ (n : Int) (offset : Int) (reference : Reference) (visited : List Int),
      reference.Number = n → (n :: rest).Nodup → (∀ x ∈ n :: rest, x ∉ visited) →
      followsPath objects (n :: rest) = true →
      ∃ offset1, ∀ fuel, rest.length + 1 ≤ fuel →
        resolve fuel ⟨offset, objects, position⟩ reference visited =
          some (objects ((n :: rest).getLast (List.cons_ne_nil n rest)),
            ⟨offset1, objects, position⟩, (n :: rest).reverse ++ visited) := by
  induction rest with
  | nil =>
    intro n offset reference visited hnum _ hdisj hpath
    subst hnum
    have hv : reference.Number ∉ visited := hdisj _ (by simp)
    have hnr := refTarget_none objects reference.Number (by simpa [followsPath] using hpath)
    refine ⟨position reference.Number offset, ?_⟩
    intro fuel hf
    match fuel, hf with
    | f + 1, _ =>
      cases hval : (objects reference.Number).Value with
      | reference r => exact absurd hval (hnr r)
      | null => simp [resolve, hv, Pdf.GetObject, hval]
      | other p => simp [resolve, hv, Pdf.GetObject, hval]
  | cons n1 rest ih =>
    intro n offset reference visited hnum hnd hdisj hpath
    subst hnum
    have hv : reference.Number ∉ visited := hdisj _ (by simp)
    have hpath2 : refTarget objects reference.Number = some n1 ∧
        followsPath objects (n1 :: rest) = true := by
      simpa [followsPath] using hpath
    obtain ⟨ref, href, hrn⟩ := refTarget_eq objects reference.Number n1 hpath2.1
    have hnd2 : (n1 :: rest).Nodup := (List.nodup_cons.mp hnd).2
    have hn : reference.Number ∉ n1 :: rest := (List.nodup_cons.mp hnd).1
    obtain ⟨offset1, hfuel⟩ := ih n1 (position reference.Number offset) ref
      (reference.Number :: visited) hrn hnd2
      (by
        intro x hx hxv
        rcases List.mem_cons.mp hxv with h | h
        · exact hn (h ▸ hx)
        · exact hdisj x (List.mem_cons_of_mem _ hx) h)
      hpath2.2
    refine ⟨offset1, ?_⟩
    intro fuel hf
    simp only [List.length_cons] at hf
    match fuel, hf with
    | f + 1, hf =>
      simp only [resolve, hv, if_false, Pdf.GetObject, href]
      rw [hfuel f (by omega)]
      simp [List.getLast_cons]

/-- C11: for a chain of pairwise distinct object numbers `n :: rest` in which the value of
every object but the last is a reference to the next one and the value of the last object
is no reference, `Resolve` on a reference to `n` returns exactly the value of the last
object, which is no reference, and `ResolveStream` returns exactly its stream; with an
empty `rest` these are the value and the stream of object `n` itself. -/
theorem Resolve_chain_value (pdf : Pdf) (n : Int) (rest : List Int) (reference : Reference)
    (hnum : reference.Number = n) (hnd : (n :: rest).Nodup)
    (hpath : followsPath pdf.objects (n :: rest) = true) :
    ∃ pdf1,
      (∀ fuel, rest.length + 1 ≤ fuel →
        Resolve fuel pdf reference =
          some ((pdf.objects ((n :: rest).getLast (List.cons_ne_nil n rest))).Value, pdf1) ∧
        ResolveStream fuel pdf reference =
          some ((pdf.objects ((n :: rest).getLast (List.cons_ne_nil n rest))).Stream, pdf1)) ∧
      refTarget pdf.objects ((n :: rest).getLast (List.cons_ne_nil n rest)) = none := by
  obtain ⟨offset1, hfuel⟩ := resolve_path pdf.objects pdf.position rest n pdf.offset
    reference [] hnum hnd (by simp) hpath
  refine ⟨Pdf.Seek ⟨offset1, pdf.objects, pdf.position⟩ pdf.CurrentOffset, ?_, ?_⟩
  · intro fuel hf
    have h : resolve fuel pdf reference [] =
        some (pdf.objects ((n :: rest).getLast (List.cons_ne_nil n rest)),
          ⟨offset1, pdf.objects, pdf.position⟩, (n :: rest).reverse ++ []) := hfuel fuel hf
    exact ⟨by simp only [Resolve, h], by simp only [ResolveStream, h]⟩
  · clear hfuel hnd hnum
    induction rest generalizing n with
    | nil => simpa [followsPath] using hpath
    | cons n1 rest ih =>
      have hpath2 : refTarget pdf.objects n = some n1 ∧
          followsPath pdf.objects (n1 :: rest) = true := by
        simpa [followsPath] using hpath
      simpa [List.getLast_cons] using ih n1 hpath2.2

/-- Witness of C11: in the chain example a reference to object 1 resolves to the value and
the stream of object 3, and a reference to object 3 resolves to them directly. -/
theorem Resolve_chain_value_witness :
    (∃ pdf1,
      (∀ fuel, [2, 3].length + 1 ≤ fuel →
        Resolve fuel chainDocument ⟨1, 0⟩ = some (.other [52, 50], pdf1) ∧
        ResolveStream fuel chainDocument ⟨1, 0⟩ = some (some [1, 2, 3], pdf1)) ∧
      refTarget chainDocument.objects 3 = none) ∧
    (∃ pdf1,
      (∀ fuel, ([] : List Int).length + 1 ≤ fuel →
        Resolve fuel chainDocument ⟨3, 0⟩ = some (.other [52, 50], pdf1) ∧
        ResolveStream fuel chainDocument ⟨3, 0⟩ = some (some [1, 2, 3], pdf1)) ∧
      refTarget chainDocument.objects 3 = none) :=
  ⟨Resolve_chain_value chainDocument 1 [2, 3] ⟨1, 0⟩ rfl (by decide) (by decide),
    Resolve_chain_value chainDocument 3 [] ⟨3, 0⟩ rfl (by decide) (by decide)⟩

theorem firstSignificant_split (s : List Nat) : ∀ (inComment : Bool) (b : Nat) (rest : List Nat),
    firstSignificant inComment s = some (b, rest) →
    b ∉ whitespace ∧ b ≠ 37 ∧ ∃ pre, s = pre ++ b :: rest := by
  induction s with
  | nil => intro c b rest h; cases c <;> simp [firstSignificant] at h
  | cons a s ih =>
    intro c b rest h
    cases c with
    | true =>
      have h2 : ∃ c2, firstSignificant c2 s = some (b, rest) := by
        by_cases ha : a = 10
        · exact ⟨false, by simpa [firstSignificant, ha] using h⟩
        · exact ⟨true, by simpa [firstSignificant, ha] using h⟩
      obtain ⟨c2, h3⟩ := h2
      obtain ⟨hw, hc, pre, hpre⟩ := ih c2 b rest h3
      exact ⟨hw, hc, a :: pre, by simp [hpre]⟩
    | false =>
      by_cases hw : a ∈ whitespace
      · obtain ⟨hw2, hc, pre, hpre⟩ := ih false b rest (by simpa [firstSignificant, hw] using h)
        exact ⟨hw2, hc, a :: pre, by simp [hpre]⟩
      · by_cases hc : a = 37
        · subst hc
          obtain ⟨hw2, hc2, pre, hpre⟩ := ih true b rest (by simpa [firstSignificant, hw] using h)
          exact ⟨hw2, hc2, 37 :: pre, by simp [hpre]⟩
        · simp only [firstSignificant, hw, hc, if_false, Option.some.injEq, Prod.mk.injEq] at h
          obtain ⟨hb, hr⟩ := h
          subst hb; subst hr
          exact ⟨hw, hc, [], rfl⟩

/-- C12: `SkipWhitespace` returns the first byte of the unread input that is neither
whitespace nor part of a `%`-to-LF comment and leaves the stream right after that byte;
it returns an error exactly when the input holds no such byte.  The byte returned is no
whitespace and no `%`, and the stream left is what follows it in the input. -/
theorem SkipWhitespace_first_significant (s : List Nat) (fuel : Nat) (hf : s.length < fuel) :
    SkipWhitespace fuel s = some (skipResult (firstSignificant false s)) ∧
    ((∃ e rest, SkipWhitespace fuel s = some (.error e, rest)) ↔
      firstSignificant false s = none) ∧
    (∀ b rest, SkipWhitespace fuel s = some (.ok b, rest) ↔
      firstSignificant false s = some (b, rest)) ∧
    (∀ b rest, SkipWhitespace fuel s = some (.ok b, rest) →
      b ∉ whitespace ∧ b ≠ 37 ∧ ∃ pre, s = pre ++ b :: rest) := by
  have h := SkipWhitespace_eq s.length s (Nat.le_refl _) fuel hf
  have hok : ∀ b rest, SkipWhitespace fuel s = some (.ok b, rest) ↔
      firstSignificant false s = some (b, rest) := by
    intro b rest
    rw [h]
    cases firstSignificant false s with
    | none => simp [skipResult]
    | some p => obtain ⟨b2, r2⟩ := p; simp [skipResult]
  refine ⟨h, ?_, hok, ?_⟩
  · rw [h]
    cases firstSignificant false s with
    | none => simp only [skipResult, iff_true]; exact ⟨.EOF, [], rfl⟩
    | some p => obtain ⟨b2, r2⟩ := p; simp [skipResult]
  · intro b rest hsw
    exact firstSignificant_split s false b rest ((hok b rest).mp hsw)

/-- Witness of C12: in `%a<CR>b<LF> c` the CR does not end the comment, the byte returned
is `c`; an input that ends inside a comment gives the error. -/
theorem SkipWhitespace_first_significant_witness :
    (SkipWhitespace 8 [37, 97, 13, 98, 10, 32, 99] =
        some (skipResult (firstSignificant false [37, 97, 13, 98, 10, 32, 99])) ∧
      ((∃ e rest, SkipWhitespace 8 [37, 97, 13, 98, 10, 32, 99] = some (.error e, rest)) ↔
        firstSignificant false [37, 97, 13, 98, 10, 32, 99] = none) ∧
      (∀ b rest, SkipWhitespace 8 [37, 97, 13, 98, 10, 32, 99] = some (.ok b, rest) ↔
        firstSignificant false [37, 97, 13, 98, 10, 32, 99] = some (b, rest)) ∧
      (∀ b rest, SkipWhitespace 8 [37, 97, 13, 98, 10, 32, 99] = some (.ok b, rest) →
        b ∉ whitespace ∧ b ≠ 37 ∧ ∃ pre, [37, 97, 13, 98, 10, 32, 99] = pre ++ b :: rest)) ∧
    SkipWhitespace 8 [37, 97, 13, 98, 10, 32, 99] = some (.ok 99, []) ∧
    SkipWhitespace 8 [32, 37, 97, 13] = some (.error .EOF, []) :=
  ⟨SkipWhitespace_first_significant [37, 97, 13, 98, 10, 32, 99] 8 (by decide), by decide,
    by decide⟩

theorem escapeValue_octal (d : Nat) (h1 : 48 ≤ d) (h2 : d ≤ 55) : escapeValue d = d := by
  unfold escapeValue
  split_ifs <;> omega

theorem stringLoop_octal (fuel open_parens d : Nat) (token : Token) (s2 : List Nat)
    (hop : 0 < open_parens) (h1 : 48 ≤ d) (h2 : d ≤ 55) :
    stringLoop (fuel + 1) open_parens token (92 :: d :: s2) =
      stringLoop fuel open_parens
        (token.WriteByte (octalByte (octalLoop 2 [d] s2).1 (octalLoop 2 [d] s2).2).1)
        (octalByte (octalLoop 2 [d] s2).1 (octalLoop 2 [d] s2).2).2 := by
  have h10 : d ≠ 10 := by omega
  have h13 : d ≠ 13 := by omega
  have he := escapeValue_octal d h1 h2
  simp only [stringLoop, hop, if_true, h10, h13, if_false, he, h1, h2, and_self]

theorem ParseUint_octal3 (a b c : Nat) (ha1 : 48 ≤ a) (ha2 : a ≤ 55) (hb1 : 48 ≤ b)
    (hb2 : b ≤ 55) (hc1 : 48 ≤ c) (hc2 : c ≤ 55) :
    ParseUint [a, b, c] 8 8 =
      if 255 < ((a - 48) * 8 + (b - 48)) * 8 + (c - 48) then (255, true)
      else (((a - 48) * 8 + (b - 48)) * 8 + (c - 48), false) := by
  have ha : digitVal a = some (a - 48) := by simp [digitVal, ha1]; omega
  have hb : digitVal b = some (b - 48) := by simp [digitVal, hb1]; omega
  have hc : digitVal c = some (c - 48) := by simp [digitVal, hc1]; omega
  have ha8 : a - 48 < 8 := by omega
  have hb8 : b - 48 < 8 := by omega
  have hc8 : c - 48 < 8 := by omega
  simp [ParseUint, parseDigits, ha, hb, hc, ha8, hb8, hc8]

theorem octalLoop_stop (n : Nat) (code rest : List Nat)
    (hstop : rest = [] ∨ ∃ c rest1, rest = c :: rest1 ∧ (c < 48 ∨ 55 < c)) :
    octalLoop (n + 1) code rest = (code, rest) := by
  rcases hstop with h | ⟨c, rest1, h, hc⟩
  · subst h; simp [octalLoop]
  · subst h
    have hc2 : c < 48 ∨ c > 55 := hc
    simp [octalLoop, hc2]

theorem octalLoop_digit (n d : Nat) (code rest : List Nat) (h1 : 48 ≤ d) (h2 : d ≤ 55) :
    octalLoop (n + 1) code (d :: rest) = octalLoop n (code ++ [d]) rest := by
  have h : ¬ (d < 48 ∨ d > 55) := by omega
  simp [octalLoop, h]

/-- C13: inside a literal string an unescaped backslash followed by the maximal run `ds`
of one to three octal digits (cut at three digits, at the first byte that is no octal
digit, or at the end of the stream) whose base-8 value is at most 255 appends exactly one
byte, that value, and leaves the open-paren counter as it is; the scan goes on with the
bytes after the run, the byte that stopped it included.  `(\101)` contributes `A`. -/
theorem string_octal_escape (fuel open_parens : Nat) (token : Token) (ds rest : List Nat)
    (hop : 0 < open_parens) (hds : ∀ d ∈ ds, 48 ≤ d ∧ d ≤ 55) (hne : ds ≠ [])
    (hlen : ds.length ≤ 3)
    (hmax : ds.length = 3 ∨ rest = [] ∨ ∃ c rest1, rest = c :: rest1 ∧ (c < 48 ∨ 55 < c))
    (hval : octalValue ds ≤ 255) :
    stringLoop (fuel + 1) open_parens token (92 :: (ds ++ rest)) =
      stringLoop fuel open_parens (token.WriteByte (octalValue ds)) rest ∧
    NextToken [40, 92, 49, 48, 49, 41] =
      some (.ok { NewToken 40 with written := [65, 41] }, []) := by
  refine ⟨?_, by decide⟩
  match ds, hne, hlen, hds, hmax, hval with
  | [a], _, _, hds, hmax, _ =>
    have ha := hds a (by simp)
    have hstop : rest = [] ∨ ∃ c rest1, rest = c :: rest1 ∧ (c < 48 ∨ 55 < c) := by
      rcases hmax with h | h
      · simp at h
      · exact h
    rw [List.singleton_append, stringLoop_octal fuel open_parens a token rest hop ha.1 ha.2,
      octalLoop_stop 1 [a] rest hstop]
    have hv : octalValue [a] = a - 48 := by simp [octalValue]
    have hm : (a - 48) % 256 = a - 48 := by omega
    simp [octalByte, ParseUint_octal1 a ha.1 ha.2, hv, hm]
  | [a, b], _, _, hds, hmax, _ =>
    have ha := hds a (by simp)
    have hb := hds b (by simp)
    have hstop : rest = [] ∨ ∃ c rest1, rest = c :: rest1 ∧ (c < 48 ∨ 55 < c) := by
      rcases hmax with h | h
      · simp at h
      · exact h
    rw [List.cons_append, List.singleton_append,
      stringLoop_octal fuel open_parens a token (b :: rest) hop ha.1 ha.2,
      octalLoop_digit 1 b [a] rest hb.1 hb.2, octalLoop_stop 0 _ rest hstop]
    have hv : octalValue [a, b] = (a - 48) * 8 + (b - 48) := by simp [octalValue]; omega
    have hm : ((a - 48) * 8 + (b - 48)) % 256 = (a - 48) * 8 + (b - 48) := by omega
    simp [octalByte, ParseUint_octal2 a b ha.1 ha.2 hb.1 hb.2, hv, hm]
  | [a, b, c], _, _, hds, _, hval =>
    have ha := hds a (by simp)
    have hb := hds b (by simp)
    have hc := hds c (by simp)
    rw [List.cons_append, List.cons_append, List.singleton_append,
      stringLoop_octal fuel open_parens a token (b :: c :: rest) hop ha.1 ha.2,
      octalLoop_digit 1 b [a] _ hb.1 hb.2, octalLoop_digit 0 c _ _ hc.1 hc.2]
    have hv : octalValue [a, b, c] = ((a - 48) * 8 + (b - 48)) * 8 + (c - 48) := by
      simp [octalValue]; omega
    rw [hv] at hval ⊢
    have hno : ¬ 255 < ((a - 48) * 8 + (b - 48)) * 8 + (c - 48) := by omega
    have hm : (((a - 48) * 8 + (b - 48)) * 8 + (c - 48)) % 256 =
        ((a - 48) * 8 + (b - 48)) * 8 + (c - 48) := by omega
    simp [octalLoop, octalByte, ParseUint_octal3 a b c ha.1 ha.2 hb.1 hb.2 hc.1 hc.2, hno, hm]
  | _ :: _ :: _ :: _ :: _, _, hlen, _, _, _ => simp at hlen

/-- Witness of C13: `\7` before a byte that is no octal digit. -/
theorem string_octal_escape_witness :
    stringLoop (3 + 1) 1 (NewToken 40) (92 :: ([55] ++ [97, 41])) =
      stringLoop 3 1 ((NewToken 40).WriteByte (octalValue [55])) [97, 41] ∧
    NextToken [40, 92, 49, 48, 49, 41] =
      some (.ok { NewToken 40 with written := [65, 41] }, []) :=
  string_octal_escape 3 1 (NewToken 40) [55] [97, 41] (by decide) (by decide) (by decide)
    (by decide) (Or.inr (Or.inr ⟨97, [41], rfl, by decide⟩)) (by decide)

/-- C14: inside a literal string an unescaped backslash followed by three octal digits
whose base-8 value exceeds 255 (so the first digit is 4 to 7) raises no error: the escape
appends exactly one byte, the base-8 value of the first two digits, and the third digit
stays in the stream and is then appended as an ordinary byte of the string.  `(\400)`
contributes the byte 0x20 and then `0`. -/
theorem string_octal_overflow (fuel open_parens : Nat) (token : Token) (d1 d2 d3 : Nat)
    (rest : List Nat) (hop : 0 < open_parens) (h1 : 48 ≤ d1 ∧ d1 ≤ 55) (h2 : 48 ≤ d2 ∧ d2 ≤ 55)
    (h3 : 48 ≤ d3 ∧ d3 ≤ 55) (hval : 255 < octalValue [d1, d2, d3]) :
    stringLoop (fuel + 1) open_parens token (92 :: d1 :: d2 :: d3 :: rest) =
      stringLoop fuel open_parens (token.WriteByte (8 * (d1 - 48) + (d2 - 48))) (d3 :: rest) ∧
    stringLoop (fuel + 2) open_parens token (92 :: d1 :: d2 :: d3 :: rest) =
      stringLoop fuel open_parens
        ((token.WriteByte (8 * (d1 - 48) + (d2 - 48))).WriteByte d3) rest ∧
    52 ≤ d1 ∧
    NextToken [40, 92, 52, 48, 48, 41] =
      some (.ok { NewToken 40 with written := [32, 48, 41] }, []) := by
  have hv : octalValue [d1, d2, d3] = ((d1 - 48) * 8 + (d2 - 48)) * 8 + (d3 - 48) := by
    simp [octalValue]; omega
  rw [hv] at hval
  have hstep : stringLoop (fuel + 1) open_parens token (92 :: d1 :: d2 :: d3 :: rest) =
      stringLoop fuel open_parens (token.WriteByte (8 * (d1 - 48) + (d2 - 48)))
        (d3 :: rest) := by
    rw [stringLoop_octal fuel open_parens d1 token (d2 :: d3 :: rest) hop h1.1 h1.2,
      octalLoop_digit 1 d2 [d1] _ h2.1 h2.2, octalLoop_digit 0 d3 _ _ h3.1 h3.2]
    have hm : ((d1 - 48) * 8 + (d2 - 48)) % 256 = 8 * (d1 - 48) + (d2 - 48) := by omega
    simp [octalLoop, octalByte, ParseUint_octal3 d1 d2 d3 h1.1 h1.2 h2.1 h2.2 h3.1 h3.2, hval,
      ParseUint_octal2 d1 d2 h1.1 h1.2 h2.1 h2.2, hm]
  refine ⟨hstep, ?_, by omega, by decide⟩
  have hstep2 := stringLoop_octal (fuel + 1) open_parens d1 token (d2 :: d3 :: rest) hop h1.1 h1.2
  rw [octalLoop_digit 1 d2 [d1] _ h2.1 h2.2, octalLoop_digit 0 d3 _ _ h3.1 h3.2] at hstep2
  have hm : ((d1 - 48) * 8 + (d2 - 48)) % 256 = 8 * (d1 - 48) + (d2 - 48) := by omega
  simp only [octalLoop, octalByte, List.singleton_append, List.cons_append, List.nil_append,
    ParseUint_octal3 d1 d2 d3 h1.1 h1.2 h2.1 h2.2 h3.1 h3.2, hval, if_true] at hstep2
  rw [hstep2]
  have h92 : d3 ≠ 92 := by omega
  have h40 : d3 ≠ 40 := by omega
  have h41 : d3 ≠ 41 := by omega
  simp [stringLoop, hop, h92, h40, h41, ParseUint_octal2 d1 d2 h1.1 h1.2 h2.1 h2.2, hm]

/-- Witness of C14: `\400` inside a string. -/
theorem string_octal_overflow_witness :
    stringLoop (3 + 1) 1 (NewToken 40) (92 :: 52 :: 48 :: 48 :: [41]) =
      stringLoop 3 1 ((NewToken 40).WriteByte (8 * (52 - 48) + (48 - 48))) (48 :: [41]) ∧
    stringLoop (3 + 2) 1 (NewToken 40) (92 :: 52 :: 48 :: 48 :: [41]) =
      stringLoop 3 1
        (((NewToken 40).WriteByte (8 * (52 - 48) + (48 - 48))).WriteByte 48) [41] ∧
    52 ≤ 52 ∧
    NextToken [40, 92, 52, 48, 48, 41] =
      some (.ok { NewToken 40 with written := [32, 48, 41] }, []) :=
  string_octal_overflow 3 1 (NewToken 40) 52 48 48 [41] (by decide) (by decide) (by decide)
    (by decide) (by decide)

theorem stringLoop_step (fuel open_parens : Nat) (token : Token) (s : List Nat) :
    stringLoop (fuel + 1) open_parens token s =
      match stringStep open_parens token s with
      | .done t rest => some (t, rest)
      | .next op t rest => stringLoop fuel op t rest := by
  by_cases hp : open_parens > 0
  swap
  · simp [stringLoop, stringStep, hp]
  cases s with
  | nil => simp [stringLoop, stringStep, hp]
  | cons b s1 =>
    by_cases hb : b = 92
    · subst hb
      cases s1 with
      | nil => simp [stringLoop, stringStep, hp]
      | cons c s2 =>
        by_cases hc : c = 10
        · simp [stringLoop, stringStep, hp, hc]
        · by_cases hc13 : c = 13
          · subst hc13
            cases s2 with
            | nil => simp [stringLoop, stringStep, hp]
            | cons d s3 =>
              by_cases hd : d = 10
              · simp [stringLoop, stringStep, hp, hd]
              · simp [stringLoop, stringStep, hp, hd]
          · by_cases ho : 48 ≤ escapeValue c ∧ escapeValue c ≤ 55
            · simp [stringLoop, stringStep, hp, hc, hc13, ho]
            · simp [stringLoop, stringStep, hp, hc, hc13, ho]
    · by_cases h40 : b = 40
      · subst h40
        simp [stringLoop, stringStep, hp]
      · by_cases h41 : b = 41
        · subst h41
          simp [stringLoop, stringStep, hp]
        · simp [stringLoop, stringStep, hp, hb, h40, h41]

/-- C15: inside a literal string a line continuation appends nothing and leaves the
open-paren counter as it is: after an unescaped backslash followed by LF, or by CR LF,
the scan goes on with the bytes after them; after an unescaped backslash followed by CR
and a byte `x` other than LF it goes on with `x`, read as if it directly followed the
preceding content.  The token for `(a\<LF>b)` is the token for `(ab)`. -/
theorem string_line_continuation (fuel open_parens : Nat) (token : Token) (x : Nat)
    (rest : List Nat) (hop : 0 < open_parens) (hx : x ≠ 10) :
    stringLoop (fuel + 1) open_parens token (92 :: 10 :: rest) =
      stringLoop fuel open_parens token rest ∧
    stringLoop (fuel + 1) open_parens token (92 :: 13 :: 10 :: rest) =
      stringLoop fuel open_parens token rest ∧
    stringLoop (fuel + 1) open_parens token (92 :: 13 :: x :: rest) =
      stringLoop fuel open_parens token (x :: rest) ∧
    (∃ t, NextToken [40, 97, 92, 10, 98, 41] = some (.ok t, []) ∧
      NextToken [40, 97, 98, 41] = some (.ok t, [])) ∧
    (∃ t, NextToken [40, 97, 92, 13, 10, 98, 41] = some (.ok t, []) ∧
      NextToken [40, 97, 98, 41] = some (.ok t, [])) ∧
    (∃ t, NextToken [40, 97, 92, 13, 98, 41] = some (.ok t, []) ∧
      NextToken [40, 97, 98, 41] = some (.ok t, [])) := by
  refine ⟨?_, ?_, ?_, ⟨⟨40, [97, 98, 41], false⟩, by decide, by decide⟩,
    ⟨⟨40, [97, 98, 41], false⟩, by decide, by decide⟩,
    ⟨⟨40, [97, 98, 41], false⟩, by decide, by decide⟩⟩
  · simp [stringLoop, hop]
  · simp [stringLoop, hop]
  · simp [stringLoop, hop, hx]

/-- Witness of C15 with the byte `b` after the CR. -/
theorem string_line_continuation_witness :
    stringLoop (3 + 1) 1 (NewToken 40) (92 :: 10 :: [41]) =
      stringLoop 3 1 (NewToken 40) [41] ∧
    stringLoop (3 + 1) 1 (NewToken 40) (92 :: 13 :: 10 :: [41]) =
      stringLoop 3 1 (NewToken 40) [41] ∧
    stringLoop (3 + 1) 1 (NewToken 40) (92 :: 13 :: 98 :: [41]) =
      stringLoop 3 1 (NewToken 40) (98 :: [41]) ∧
    (∃ t, NextToken [40, 97, 92, 10, 98, 41] = some (.ok t, []) ∧
      NextToken [40, 97, 98, 41] = some (.ok t, [])) ∧
    (∃ t, NextToken [40, 97, 92, 13, 10, 98, 41] = some (.ok t, []) ∧
      NextToken [40, 97, 98, 41] = some (.ok t, [])) ∧
    (∃ t, NextToken [40, 97, 92, 13, 98, 41] = some (.ok t, []) ∧
      NextToken [40, 97, 98, 41] = some (.ok t, [])) :=
  string_line_continuation 3 1 (NewToken 40) 98 [41] (by decide) (by decide)

theorem stringStep_closed (open_parens : Nat) (token : Token) (s : List Nat)
    (hinv : 0 < open_parens ∨ token.written.getLast? = some 41) :
    match stringStep open_parens token s with
    | .done t _ => t.written.getLast? = some 41
    | .next op t _ => 0 < op ∨ t.written.getLast? = some 41 := by
  by_cases hp : open_parens > 0
  swap
  · have h41 : token.written.getLast? = some 41 := by
      rcases hinv with h | h
      · exact absurd h hp
      · exact h
    simp [stringStep, hp, h41]
  cases s with
  | nil => simp [stringStep, hp, Token.WriteByte]
  | cons b s1 =>
    by_cases hb : b = 92
    · subst hb
      cases s1 with
      | nil => simp [stringStep, hp, Token.WriteByte]
      | cons c s2 =>
        by_cases hc : c = 10
        · simp [stringStep, hp, hc]
        · by_cases hc13 : c = 13
          · subst hc13
            cases s2 with
            | nil => simp [stringStep, hp, Token.WriteByte]
            | cons d s3 =>
              by_cases hd : d = 10
              · simp [stringStep, hp, hd]
              · simp [stringStep, hp, hd]
          · by_cases ho : 48 ≤ escapeValue c ∧ escapeValue c ≤ 55
            · simp [stringStep, hp, hc, hc13, ho]
            · simp [stringStep, hp, hc, hc13, ho]
    · by_cases h40 : b = 40
      · subst h40
        simp [stringStep, hp]
      · by_cases h41 : b = 41
        · subst h41
          simp [stringStep, hp, Token.WriteByte]
        · simp [stringStep, hp, hb, h40, h41]

theorem stringLoop_closed (fuel : Nat) : ∀ (open_parens : Nat) (token : Token) (s : List Nat)
    (t : Token) (rest : List Nat), stringLoop fuel open_parens token s = some (t, rest) →
    (0 < open_parens ∨ token.written.getLast? = some 41) →
    t.written.getLast? = some 41 := by
  induction fuel with
  | zero => intro op token s t rest h; simp [stringLoop] at h
  | succ f ih =>
    intro op token s t rest h hinv
    rw [stringLoop_step] at h
    have hstep := stringStep_closed op token s hinv
    cases hs : stringStep op token s with
    | done t1 r1 =>
      rw [hs] at h hstep
      simp only [Option.some.injEq, Prod.mk.injEq] at h
      rw [← h.1]
      exact hstep
    | next op1 t1 r1 =>
      rw [hs] at h hstep
      exact ih op1 t1 r1 t rest h hstep

theorem hexPairLoop_closed (fuel : Nat) : ∀ (i : Nat) (code : List Nat) (token : Token)
    (s : List Nat) (t : Token) (rest : List Nat),
    hexPairLoop fuel i code token s = some (.returned t rest) →
    t.written.getLast? = some 62 := by
  induction fuel with
  | zero => intro i code token s t rest h; simp [hexPairLoop] at h
  | succ f ih =>
    intro i code token s t rest h
    by_cases hi : i < 2
    swap
    · simp [hexPairLoop, hi] at h
    simp only [hexPairLoop, hi, if_true] at h
    cases hsw : SkipWhitespace (f + 1) s with
    | none => rw [hsw] at h; simp at h
    | some p =>
      obtain ⟨r, s1⟩ := p
      rw [hsw] at h
      cases r with
      | error e =>
        simp only [Option.some.injEq, HexPair.returned.injEq] at h
        rw [← h.1]
        simp [Token.WriteByte]
      | ok b =>
        simp only at h
        by_cases hb : b = 62
        · simp only [hb, if_true, Option.some.injEq, HexPair.returned.injEq] at h
          rw [← h.1]
          simp [Token.WriteByte]
        · by_cases hx : IsHex b = true
          · simp only [hb, if_false, hx, Bool.not_true, Bool.false_eq_true] at h
            exact ih _ _ _ _ _ _ h
          · have hx2 : IsHex b = false := by simpa using hx
            simp only [hb, if_false, hx2, Bool.not_false, if_true] at h
            exact ih _ _ _ _ _ _ h

theorem hexLoop_closed (fuel : Nat) : ∀ (token : Token) (s : List Nat) (t : Token)
    (rest : List Nat), hexLoop fuel token s = some (t, rest) →
    t.written.getLast? = some 62 := by
  induction fuel with
  | zero => intro token s t rest h; simp [hexLoop] at h
  | succ f ih =>
    intro token s t rest h
    rw [hexLoop_succ] at h
    cases hp : hexPairLoop (f + 1) 0 [48, 48] token s with
    | none => rw [hp] at h; simp at h
    | some r =>
      rw [hp] at h
      cases r with
      | returned t1 s1 =>
        simp only [Option.some.injEq, Prod.mk.injEq] at h
        rw [← h.1]
        exact hexPairLoop_closed (f + 1) 0 [48, 48] token s t1 s1 hp
      | pair code s1 => exact ih _ _ _ _ h

theorem okToken_some (x : Option (Token × List Nat)) (t : Token) (rest : List Nat)
    (h : okToken x = some (.ok t, rest)) : x = some (t, rest) := by
  cases x with
  | none => simp [okToken] at h
  | some p =>
    obtain ⟨t1, r1⟩ := p
    simp only [okToken, Option.some.injEq, Prod.mk.injEq, Except.ok.injEq] at h
    rw [h.1, h.2]

theorem NextToken_string (s s1 : List Nat) (h : firstSignificant false s = some (40, s1)) :
    NextToken s = okToken (stringLoop (s.length + 1) 1 (NewToken 40) s1) := by
  obtain ⟨_, hsw⟩ := firstSignificant_skip s 40 s1 h
  simp [NextToken, NextTokenFuel, hsw (s.length + 1) (Nat.lt_succ_self _)]

theorem NextToken_hex (s s1 : List Nat) (h : firstSignificant false s = some (60, s1))
    (hs1 : s1.head? ≠ some 60) :
    NextToken s = okToken (hexLoop (s.length + 1) (NewToken 60) s1) := by
  obtain ⟨_, hsw⟩ := firstSignificant_skip s 60 s1 h
  cases s1 with
  | nil =>
    simp only [NextToken, NextTokenFuel, hsw (s.length + 1) (Nat.lt_succ_self _)]
    simp [hexLoop_succ, hexPairLoop, SkipWhitespace, okToken]
  | cons c s2 =>
    have hc : c ≠ 60 := by simpa using hs1
    simp [NextToken, NextTokenFuel, hsw (s.length + 1) (Nat.lt_succ_self _), hc]

/-- C16: for every input whose leading significant byte is `(` the bytes appended to the
token `NextToken` returns end with `)`, and for every input whose leading significant
byte is `<` not directly followed by `<` they end with `>`, whether the closing delimiter
is in the input or the stream ends before it. -/
theorem synthetic_closure (s : List Nat) (b : Nat) (s1 : List Nat)
    (hlead : firstSignificant false s = some (b, s1))
    (hb : b = 40 ∨ (b = 60 ∧ s1.head? ≠ some 60)) :
    ∃ t rest, NextToken s = some (.ok t, rest) ∧
      t.written.getLast? = some (if b = 40 then 41 else 62) := by
  obtain ⟨r, rest, _, h2, h3⟩ := NextToken_total s
  rcases h2 with ⟨hnone, _⟩ | ⟨_, _, t, hr⟩
  · rw [hlead] at hnone
    cases hnone
  subst hr
  refine ⟨t, rest, h3, ?_⟩
  rcases hb with hb | ⟨hb, hs1⟩
  · subst hb
    rw [NextToken_string s s1 hlead] at h3
    have := okToken_some _ t rest h3
    simpa using stringLoop_closed _ 1 (NewToken 40) s1 t rest this (Or.inl (by decide))
  · subst hb
    rw [NextToken_hex s s1 hlead hs1] at h3
    have := okToken_some _ t rest h3
    simpa using hexLoop_closed _ (NewToken 60) s1 t rest this

/-- Witness of C16: a string that ends inside an escape, and a hex string that ends in
the middle of a digit pair. -/
theorem synthetic_closure_witness :
    (∃ t rest, NextToken [32, 40, 97, 92] = some (.ok t, rest) ∧
      t.written.getLast? = some (if 40 = 40 then 41 else 62)) ∧
    (∃ t rest, NextToken [60, 52, 56, 54] = some (.ok t, rest) ∧
      t.written.getLast? = some (if 60 = 40 then 41 else 62)) ∧
    NextToken [32, 40, 97, 92] = some (.ok { NewToken 40 with written := [97, 92, 41] }, []) ∧
    NextToken [60, 52, 56, 54] = some (.ok { NewToken 60 with written := [72, 96, 62] }, []) ∧
    NextToken [60] = some (.ok { NewToken 60 with written := [62] }, []) :=
  ⟨synthetic_closure [32, 40, 97, 92] 40 [97, 92] (by decide) (Or.inl rfl),
    synthetic_closure [60, 52, 56, 54] 60 [52, 56, 54] (by decide) (Or.inr ⟨rfl, by decide⟩),
    by decide, by decide, by decide⟩

theorem closeScan_escape (d c : Nat) (s : List Nat) :
    closeScan d (92 :: c :: s) = closeScan d s := by
  simp [closeScan]

theorem closeScan_open (d : Nat) (s : List Nat) :
    closeScan d (40 :: s) = closeScan (d + 1) s := by
  simp [closeScan]

theorem closeScan_close (d : Nat) (s : List Nat) :
    closeScan d (41 :: s) = if d ≤ 1 then some s else closeScan (d - 1) s := by
  simp [closeScan]

theorem closeScan_other (d b : Nat) (s : List Nat) (h92 : b ≠ 92) (h40 : b ≠ 40)
    (h41 : b ≠ 41) : closeScan d (b :: s) = closeScan d s := by
  rw [closeScan]
  · simp [h40, h41]
  · intro h; exact absurd h h92
  · intro x s2 h; exact absurd h h92

theorem closeScan_octal_run (d : Nat) (pre post : List Nat)
    (hpre : ∀ x ∈ pre, 48 ≤ x ∧ x ≤ 55) : closeScan d (pre ++ post) = closeScan d post := by
  induction pre with
  | nil => rfl
  | cons x pre ih =>
    have hx := hpre x (by simp)
    rw [List.cons_append, closeScan_other d x _ (by omega) (by omega) (by omega)]
    exact ih (fun y hy => hpre y (List.mem_cons_of_mem _ hy))

theorem octalByte_rest (b : Nat) (h1 : 48 ≤ b) (h2 : b ≤ 55) (s2 : List Nat) :
    ∃ pre pre1 post, s2 = pre ++ post ∧ (∀ x ∈ pre, 48 ≤ x ∧ x ≤ 55) ∧
      (∀ x ∈ pre1, 48 ≤ x ∧ x ≤ 55) ∧
      (octalByte (octalLoop 2 [b] s2).1 (octalLoop 2 [b] s2).2).2 = pre1 ++ post := by
  obtain ⟨pre, post, hs, hloop, _, hd⟩ := octalLoop_spec 2 [b] s2
  rw [hloop]
  unfold octalByte
  split
  · exact ⟨pre, [], post, hs, hd, by simp, rfl⟩
  · refine ⟨pre, (([b] ++ pre).getLast?).toList, post, hs, hd, ?_, rfl⟩
    intro x hx
    have hmem : x ∈ [b] ++ pre := by
      cases hl : ([b] ++ pre).getLast? with
      | none => rw [hl] at hx; simp at hx
      | some y =>
        rw [hl] at hx
        simp only [Option.toList_some, List.mem_singleton] at hx
        subst hx
        exact List.mem_of_getLast?_eq_some hl
    rcases List.mem_append.mp hmem with h | h
    · simp at h; subst h; exact ⟨h1, h2⟩
    · exact hd x h

theorem stringStep_scan (d : Nat) (token : Token) (s : List Nat) (hd : 0 < d) :
    match stringStep d token s with
    | .done _ rest => closeScan d s = none ∧ rest = []
    | .next d1 _ s1 => s1.length < s.length ∧
        ((0 < d1 ∧ closeScan d s = closeScan d1 s1) ∨ (d1 = 0 ∧ closeScan d s = some s1)) := by
  have hp : d > 0 := hd
  cases s with
  | nil => simp [stringStep, hp, closeScan]
  | cons b s1 =>
    by_cases hb : b = 92
    · subst hb
      cases s1 with
      | nil => simp [stringStep, hp, closeScan]
      | cons c s2 =>
        rw [closeScan_escape]
        by_cases hc : c = 10
        · simp [stringStep, hp, hc, hd]
          omega
        · by_cases hc13 : c = 13
          · subst hc13
            cases s2 with
            | nil => simp [stringStep, hp, closeScan]
            | cons e s3 =>
              by_cases he : e = 10
              · subst he
                simp [stringStep, hp, hd,
                  closeScan_other d 10 s3 (by decide) (by decide) (by decide)]
                omega
              · simp [stringStep, hp, he, hd]
          · by_cases ho : 48 ≤ escapeValue c ∧ escapeValue c ≤ 55
            · obtain ⟨pre, pre1, post, hs2, hpre, hpre1, hq⟩ :=
                octalByte_rest (escapeValue c) ho.1 ho.2 s2
              have hsuf := (octalByte_suffix (escapeValue c) ho.1 ho.2 s2).length_le
              have hcs : closeScan d s2 = closeScan d
                  (octalByte (octalLoop 2 [escapeValue c] s2).1
                    (octalLoop 2 [escapeValue c] s2).2).2 := by
                rw [hq, closeScan_octal_run d pre1 post hpre1]
                rw [hs2, closeScan_octal_run d pre post hpre]
              have hgoal : stringStep d token (92 :: c :: s2) =
                  .next d
                    (token.WriteByte (octalByte (octalLoop 2 [escapeValue c] s2).1
                      (octalLoop 2 [escapeValue c] s2).2).1)
                    (octalByte (octalLoop 2 [escapeValue c] s2).1
                      (octalLoop 2 [escapeValue c] s2).2).2 := by
                simp [stringStep, hp, hc, hc13, ho]
              rw [hgoal]
              exact ⟨by simp only [List.length_cons]; omega, Or.inl ⟨hd, hcs⟩⟩
            · simp [stringStep, hp, hc, hc13, ho, hd]
              omega
    · by_cases h40 : b = 40
      · subst h40
        simp [stringStep, hp, closeScan_open]
      · by_cases h41 : b = 41
        · subst h41
          rw [closeScan_close]
          by_cases hd1 : d ≤ 1
          · have : d - 1 = 0 := by omega
            simp [stringStep, hp, hd1, this]
          · have : 0 < d - 1 := by omega
            simp [stringStep, hp, hd1, this]
        · rw [closeScan_other d b s1 hb h40 h41]
          simp [stringStep, hp, hb, h40, h41, hd]

theorem stringLoop_scan (n : Nat) : ∀ (s : List Nat), s.length ≤ n →
    ∀ (d : Nat) (token : Token) (fuel : Nat), 0 < d → s.length < fuel →
    ∃ t, stringLoop fuel d token s = some (t, (closeScan d s).getD []) := by
  induction n using Nat.strong_induction_on with
  | _ n ih =>
    intro s hn d token fuel hd hf
    match fuel, hf with
    | f + 1, hf =>
      rw [stringLoop_step]
      have hstep := stringStep_scan d token s hd
      cases hs : stringStep d token s with
      | done t1 r1 =>
        rw [hs] at hstep
        exact ⟨t1, by simp [hstep.1, hstep.2]⟩
      | next d1 t1 s1 =>
        rw [hs] at hstep
        obtain ⟨hlen, hcase⟩ := hstep
        rcases hcase with ⟨hd1, hcs⟩ | ⟨hd1, hcs⟩
        · obtain ⟨t, ht⟩ := ih s1.length (by omega) s1 (Nat.le_refl _) d1 t1 f hd1 (by omega)
          exact ⟨t, by simp only [ht, hcs]⟩
        · subst hd1
          cases f with
          | zero => omega
          | succ g => exact ⟨t1, by simp [stringLoop, hcs]⟩

/-- C17: literal-string scanning stops exactly at the matching parenthesis.  When `rest`
is what follows in `body` the first unescaped `)` that brings the counter, started at 1,
to 0, `NextToken` on `(` ++ body returns a token and leaves exactly `rest` unread.  A `(`
or `)` that follows an unescaped backslash is appended and leaves the counter as it is,
so `(a\)b)` is consumed whole, and so is `(\050)`, whose octal escape gives a `(`. -/
theorem string_stops_at_match (body rest : List Nat) (h : closeScan 1 body = some rest)
    (fuel open_parens : Nat) (token : Token) (p : Nat) (s : List Nat) (hop : 0 < open_parens)
    (hp : p = 40 ∨ p = 41) :
    (∃ t, NextToken (40 :: body) = some (.ok t, rest)) ∧
    stringLoop (fuel + 1) open_parens token (92 :: p :: s) =
      stringLoop fuel open_parens (token.WriteByte p) s ∧
    NextToken [40, 97, 92, 41, 98, 41] =
      some (.ok { NewToken 40 with written := [97, 41, 98, 41] }, []) ∧
    NextToken [40, 92, 48, 53, 48, 41] =
      some (.ok { NewToken 40 with written := [40, 41] }, []) := by
  refine ⟨?_, ?_, by decide, by decide⟩
  · obtain ⟨t, ht⟩ := stringLoop_scan body.length body (Nat.le_refl _) 1 (NewToken 40)
      ((40 :: body).length + 1) (by decide) (by simp only [List.length_cons]; omega)
    refine ⟨t, ?_⟩
    rw [NextToken_string (40 :: body) body (by simp [firstSignificant, whitespace]), ht, h]
    rfl
  · rcases hp with hp | hp
    · subst hp
      simp [stringLoop, hop, escapeValue]
    · subst hp
      simp [stringLoop, hop, escapeValue]

/-- Witness of C17: in `(a(b\))c)xy` the scan stops after the second unescaped `)` and
leaves `xy` unread. -/
theorem string_stops_at_match_witness :
    (∃ t, NextToken (40 :: [97, 40, 98, 92, 41, 41, 99, 41, 120, 121]) =
      some (.ok t, [120, 121])) ∧
    stringLoop (3 + 1) 1 (NewToken 40) (92 :: 41 :: [41]) =
      stringLoop 3 1 ((NewToken 40).WriteByte 41) [41] ∧
    NextToken [40, 97, 92, 41, 98, 41] =
      some (.ok { NewToken 40 with written := [97, 41, 98, 41] }, []) ∧
    NextToken [40, 92, 48, 53, 48, 41] =
      some (.ok { NewToken 40 with written := [40, 41] }, []) :=
  string_stops_at_match [97, 40, 98, 92, 41, 41, 99, 41, 120, 121] [120, 121] (by decide)
    3 1 (NewToken 40) 41 [41] (by decide) (Or.inr rfl)

theorem nameDecode_nil : nameDecode [] = [] := by
  simp [nameDecode]

theorem nameDecode_hash (s : List Nat) :
    nameDecode (35 :: s) =
      nameEscapeValue (hexRun s) :: nameDecode (s.drop (hexRun s).length) := by
  rw [nameDecode]
  simp

theorem nameDecode_byte (b : Nat) (s : List Nat) (hb : b ≠ 35) :
    nameDecode (b :: s) = b :: nameDecode s := by
  rw [nameDecode]
  simp [hb]

theorem nameDecode_plain (body : List Nat) (h : 35 ∉ body) : nameDecode body = body := by
  induction body with
  | nil => exact nameDecode_nil
  | cons b body ih =>
    have hb : b ≠ 35 := fun hb => h (by simp [hb])
    rw [nameDecode_byte b body hb, ih (fun hm => h (List.mem_cons_of_mem _ hm))]

theorem not_IsHex_of_stop (d : Nat) (h : d ∈ whitespace ∨ d ∈ delimiters) : IsHex d = false := by
  cases hx : IsHex d with
  | false => rfl
  | true =>
    have hb := IsHex_bounds d hx
    simp only [whitespace, delimiters, List.mem_cons, List.mem_singleton, List.not_mem_nil,
      or_false] at h
    omega

theorem nameCodeLoop_run (s : List Nat) :
    nameCodeLoop 2 0 [48, 48] s = (overwriteCode (hexRun s), s.drop (hexRun s).length) ∧
    (ParseUint (overwriteCode (hexRun s)) 16 8).1 % 256 = nameEscapeValue (hexRun s) := by
  match s with
  | [] => exact ⟨by simp [nameCodeLoop, hexRun, overwriteCode], by decide⟩
  | [a] =>
    by_cases ha : IsHex a = true
    · exact ⟨by simp [nameCodeLoop, hexRun, overwriteCode, ha],
        by simpa [hexRun, ha, overwriteCode] using nameEscapeValue_one a ha⟩
    · have ha2 : IsHex a = false := by simpa using ha
      exact ⟨by simp [nameCodeLoop, hexRun, overwriteCode, ha2],
        by simp [hexRun, ha2, overwriteCode]; decide⟩
  | a :: b :: s2 =>
    by_cases ha : IsHex a = true
    · by_cases hb : IsHex b = true
      · exact ⟨by simp [nameCodeLoop, hexRun, overwriteCode, ha, hb],
          by simpa [hexRun, ha, hb, overwriteCode] using nameEscapeValue_two a b ha hb⟩
      · have hb2 : IsHex b = false := by simpa using hb
        exact ⟨by simp [nameCodeLoop, hexRun, overwriteCode, ha, hb2],
          by simpa [hexRun, ha, hb2, overwriteCode] using nameEscapeValue_one a ha⟩
    · have ha2 : IsHex a = false := by simpa using ha
      exact ⟨by simp [nameCodeLoop, hexRun, overwriteCode, ha2],
        by simp [hexRun, ha2, overwriteCode]; decide⟩

theorem hexRun_length_le (s : List Nat) : (hexRun s).length ≤ s.length := by
  unfold hexRun
  have hp : (s.take 2).takeWhile IsHex <+: s.take 2 := List.takeWhile_prefix IsHex
  exact hp.length_le.trans (by simp)

theorem hexRun_append_stop (body rest : List Nat)
    (hstop : rest = [] ∨ ∃ d r, rest = d :: r ∧ (d ∈ whitespace ∨ d ∈ delimiters)) :
    hexRun (body ++ rest) = hexRun body := by
  have hrest : hexRun rest = [] := by
    rcases hstop with h | ⟨d, r, h, hd⟩
    · subst h; simp [hexRun]
    · subst h; simp [hexRun, not_IsHex_of_stop d hd]
  match body with
  | [] => simpa [hexRun] using hrest
  | [a] =>
    rcases hstop with h | ⟨d, r, h, hd⟩
    · subst h; simp
    · subst h
      by_cases ha : IsHex a = true
      · simp [hexRun, ha, List.takeWhile, not_IsHex_of_stop d hd]
      · have ha2 : IsHex a = false := by simpa using ha
        simp [hexRun, ha2, List.takeWhile]
  | a :: b :: body2 => simp [hexRun]

theorem nameLoop_decode (n : Nat) : ∀ (body : List Nat), body.length ≤ n →
    (∀ x ∈ body, x ∉ whitespace ∧ x ∉ delimiters) → ∀ (rest : List Nat),
    (rest = [] ∨ ∃ d r, rest = d :: r ∧ (d ∈ whitespace ∨ d ∈ delimiters)) →
    ∀ (fuel : Nat) (token : Token), body.length < fuel →
    nameLoop fuel token (body ++ rest) =
      some ({ token with written := token.written ++ nameDecode body }, rest) := by
  induction n using Nat.strong_induction_on with
  | _ n ih =>
    intro body hn hbody rest hstop fuel token hf
    match fuel, hf with
    | f + 1, hf =>
      cases body with
      | nil =>
        rcases hstop with h | ⟨d, r, h, hd⟩
        · subst h; simp [nameLoop, nameDecode_nil]
        · subst h
          have hd2 : d ∈ delimiters ∨ d ∈ whitespace := hd.symm
          simp [nameLoop, hd2, nameDecode_nil]
      | cons b body1 =>
        simp only [List.length_cons] at hn hf
        have hb := hbody b (by simp)
        have hb2 : ¬ (b ∈ delimiters ∨ b ∈ whitespace) := fun h => h.elim hb.2 hb.1
        have hbody1 : ∀ x ∈ body1, x ∉ whitespace ∧ x ∉ delimiters :=
          fun x hx => hbody x (List.mem_cons_of_mem _ hx)
        by_cases h35 : b = 35
        · subst h35
          obtain ⟨hcode, hval⟩ := nameCodeLoop_run (body1 ++ rest)
          have hrun := hexRun_append_stop body1 rest hstop
          have hle := hexRun_length_le body1
          have hdrop : (body1 ++ rest).drop (hexRun body1).length =
              body1.drop (hexRun body1).length ++ rest :=
            List.drop_append_of_le_length hle
          rw [hrun] at hcode hval
          rw [hdrop] at hcode
          have hrec := ih (body1.drop (hexRun body1).length).length
            (by simp only [List.length_drop]; omega) (body1.drop (hexRun body1).length)
            (Nat.le_refl _) (fun x hx => hbody1 x (List.mem_of_mem_drop hx)) rest hstop f
            (token.WriteByte (nameEscapeValue (hexRun body1)))
            (by simp only [List.length_drop]; omega)
          simp only [List.cons_append, nameLoop, hb2, if_false, if_true, hcode, hval, hrec]
          simp [Token.WriteByte, nameDecode_hash]
        · have hrec := ih body1.length (by omega) body1 (Nat.le_refl _) hbody1 rest hstop f
            (token.WriteByte b) (by omega)
          simp only [List.cons_append, nameLoop, hb2, if_false, h35, hrec]
          simp [Token.WriteByte, nameDecode_byte b body1 h35]

theorem ordinaryLoop_body (body : List Nat) : ∀ (rest : List Nat) (fuel : Nat) (token : Token),
    (∀ x ∈ body, x ∉ whitespace ∧ x ∉ delimiters) →
    (rest = [] ∨ ∃ d r, rest = d :: r ∧ (d ∈ whitespace ∨ d ∈ delimiters)) →
    body.length < fuel →
    ∃ t, ordinaryLoop fuel token (body ++ rest) = some (t, rest) ∧ t.first = token.first ∧
      t.written = token.written ++ body := by
  induction body with
  | nil =>
    intro rest fuel token _ hstop hf
    match fuel, hf with
    | f + 1, _ =>
      rcases hstop with h | ⟨d, r, h, hd⟩
      · subst h; exact ⟨token, by simp [ordinaryLoop], rfl, by simp⟩
      · subst h; exact ⟨token, by simp [ordinaryLoop, hd], rfl, by simp⟩
  | cons b body ih =>
    intro rest fuel token hbody hstop hf
    match fuel, hf with
    | f + 1, hf =>
      simp only [List.length_cons] at hf
      have hb := hbody b (by simp)
      have hb2 : ¬ (b ∈ whitespace ∨ b ∈ delimiters) := fun h => h.elim hb.1 hb.2
      obtain ⟨t, h1, h2, h3⟩ := ih rest f
        ({ token with IsNumber := token.IsNumber && decide (48 ≤ b ∧ b ≤ 57) }.WriteByte b)
        (fun x hx => hbody x (List.mem_cons_of_mem _ hx)) hstop (by omega)
      refine ⟨t, ?_, by simpa [Token.WriteByte] using h2, by simpa [Token.WriteByte] using h3⟩
      simp only [List.cons_append, ordinaryLoop, hb2, if_false]
      exact h1

theorem NextTokenFuel_name (fuel : Nat) (s1 : List Nat) :
    NextTokenFuel (fuel + 1) (47 :: s1) = okToken (nameLoop (fuel + 1) (NewToken 47) s1) := by
  simp [NextTokenFuel, SkipWhitespace_significant fuel 47 s1 (by decide) (by decide)]

theorem NextTokenFuel_ordinary (fuel b : Nat) (s1 : List Nat) (hw : b ∉ whitespace)
    (hb : b ∉ [37, 91, 93, 40, 47, 60, 62]) :
    NextTokenFuel (fuel + 1) (b :: s1) =
      okToken (ordinaryLoop (fuel + 1) ⟨b, [], decide (48 ≤ b ∧ b ≤ 57)⟩ s1) := by
  simp only [List.mem_cons, List.mem_singleton, List.not_mem_nil, or_false, not_or] at hb
  obtain ⟨h37, h91, h93, h40, h47, h60, h62⟩ := hb
  simp only [NextTokenFuel, SkipWhitespace_significant fuel b s1 hw h37, h91, h93, h40, h47,
    h60, h62, or_self, if_false]
  rfl

/-- C18: for names and ordinary tokens the terminating byte is pushed back.  When the
bytes `body` after the leading byte hold no whitespace and no delimiter and are followed
by a whitespace or delimiter byte `d`, `NextToken` stops there and leaves the stream
starting with `d`.  The bytes appended to a name are `body` with every `#` escape
replaced by its one byte, so they are `body` itself when it has no `#`; the bytes appended
to an ordinary token are `body`.  On `/Name/Other` two calls give `Name` and `Other`,
on `12]` they give `12` and `]`. -/
theorem terminator_pushed_back (b : Nat) (body : List Nat) (d : Nat) (rest : List Nat)
    (hbody : ∀ x ∈ body, x ∉ whitespace ∧ x ∉ delimiters)
    (hd : d ∈ whitespace ∨ d ∈ delimiters)
    (hb : b ∉ whitespace ∧ b ∉ [37, 91, 93, 40, 47, 60, 62]) :
    (∃ t, NextToken (47 :: (body ++ d :: rest)) = some (.ok t, d :: rest) ∧ t.first = 47 ∧
      t.written = nameDecode body ∧ (35 ∉ body → t.written = body)) ∧
    (∃ t, NextToken (b :: (body ++ d :: rest)) = some (.ok t, d :: rest) ∧ t.first = b ∧
      t.written = body) ∧
    NextToken [47, 78, 97, 109, 101, 47, 79, 116, 104, 101, 114] =
      some (.ok { NewToken 47 with written := [78, 97, 109, 101] },
        [47, 79, 116, 104, 101, 114]) ∧
    NextToken [47, 79, 116, 104, 101, 114] =
      some (.ok { NewToken 47 with written := [79, 116, 104, 101, 114] }, []) ∧
    NextToken [49, 50, 93] = some (.ok ⟨49, [50], true⟩, [93]) ∧
    NextToken [93] = some (.ok (NewToken 93), []) := by
  refine ⟨?_, ?_, by decide, by decide, by decide, by decide⟩
  · have hloop := nameLoop_decode body.length body (Nat.le_refl _) hbody (d :: rest)
      (Or.inr ⟨d, rest, rfl, hd⟩) ((body ++ d :: rest).length + 1 + 1) (NewToken 47)
      (by simp; omega)
    refine ⟨{ NewToken 47 with written := (NewToken 47).written ++ nameDecode body }, ?_, rfl,
      by simp [NewToken], fun h => by simp [NewToken, nameDecode_plain body h]⟩
    have hnt : NextToken (47 :: (body ++ d :: rest)) =
        NextTokenFuel ((body ++ d :: rest).length + 1 + 1) (47 :: (body ++ d :: rest)) := rfl
    rw [hnt, NextTokenFuel_name, hloop]
    rfl
  · obtain ⟨t, h1, h2, h3⟩ := ordinaryLoop_body body (d :: rest)
      ((body ++ d :: rest).length + 1 + 1) ⟨b, [], decide (48 ≤ b ∧ b ≤ 57)⟩ hbody
      (Or.inr ⟨d, rest, rfl, hd⟩) (by simp; omega)
    refine ⟨t, ?_, h2, by simpa using h3⟩
    have hnt : NextToken (b :: (body ++ d :: rest)) =
        NextTokenFuel ((body ++ d :: rest).length + 1 + 1) (b :: (body ++ d :: rest)) := rfl
    rw [hnt, NextTokenFuel_ordinary _ b _ hb.1 hb.2, h1]
    rfl

/-- Witness of C18: the name `/A#20B` before a blank and the token `xy` before `(`. -/
theorem terminator_pushed_back_witness :
    (∃ t, NextToken (47 :: ([65, 35, 50, 48, 66] ++ 32 :: [120])) = some (.ok t, 32 :: [120]) ∧
      t.first = 47 ∧ t.written = nameDecode [65, 35, 50, 48, 66] ∧
      (35 ∉ [65, 35, 50, 48, 66] → t.written = [65, 35, 50, 48, 66])) ∧
    (∃ t, NextToken (120 :: ([65, 35, 50, 48, 66] ++ 32 :: [120])) =
        some (.ok t, 32 :: [120]) ∧ t.first = 120 ∧ t.written = [65, 35, 50, 48, 66]) ∧
    NextToken [47, 78, 97, 109, 101, 47, 79, 116, 104, 101, 114] =
      some (.ok { NewToken 47 with written := [78, 97, 109, 101] },
        [47, 79, 116, 104, 101, 114]) ∧
    NextToken [47, 79, 116, 104, 101, 114] =
      some (.ok { NewToken 47 with written := [79, 116, 104, 101, 114] }, []) ∧
    NextToken [49, 50, 93] = some (.ok ⟨49, [50], true⟩, [93]) ∧
    NextToken [93] = some (.ok (NewToken 93), []) :=
  terminator_pushed_back 120 [65, 35, 50, 48, 66] 32 [120] (by decide) (by decide) (by decide)

theorem hexScan_significant (s : List Nat) : ∀ (c : Bool) (p : Option Nat),
    (firstSignificant c s = none → hexScan c p s = hexFinish p) ∧
    (∀ b rest, firstSignificant c s = some (b, rest) → hexScan c p s = hexScan false p (b :: rest)) := by
  induction s with
  | nil =>
    intro c p
    cases c <;> simp [firstSignificant, hexScan]
  | cons a s ih =>
    intro c p
    cases c with
    | true =>
      by_cases ha : a = 10
      · simpa [firstSignificant, hexScan, ha] using ih false p
      · simpa [firstSignificant, hexScan, ha] using ih true p
    | false =>
      by_cases hw : a ∈ whitespace
      · simpa [firstSignificant, hexScan, hw] using ih false p
      · by_cases hc : a = 37
        · subst hc
          simpa [firstSignificant, hexScan, hw] using ih true p
        · refine ⟨by simp [firstSignificant, hw, hc], ?_⟩
          intro b rest h
          simp only [firstSignificant, hw, hc, if_false, Option.some.injEq, Prod.mk.injEq] at h
          rw [h.1, h.2]

theorem hexScan_byte (p : Option Nat) (b : Nat) (rest : List Nat) (hw : b ∉ whitespace)
    (h37 : b ≠ 37) :
    hexScan false p (b :: rest) =
      if b = 62 then hexFinish p
      else if IsHex b then
        match p with
        | none => hexScan false (some b) rest
        | some a => (16 * hexValue a + hexValue b) :: hexScan false none rest
      else hexScan false p rest := by
  simp [hexScan, hw, h37]

theorem hexPairLoop_finish (i : Nat) (code : List Nat) (token : Token) (p : Option Nat)
    (hst : hexState i code p) :
    (if i > 0 then token.WriteByte ((ParseUint code 16 8).1 % 256) else token).WriteByte 62 =
      { token with written := token.written ++ hexFinish p } := by
  cases p with
  | none =>
    obtain ⟨hi, _⟩ := hst
    subst hi
    simp [Token.WriteByte, hexFinish]
  | some a =>
    obtain ⟨hi, ha, hcode⟩ := hst
    subst hi; subst hcode
    simp [Token.WriteByte, hexFinish, ParseUint_hex1 a ha]

theorem hexPairLoop_scan (n : Nat) : ∀ (s : List Nat), s.length ≤ n →
    ∀ (fuel i : Nat) (code : List Nat) (token : Token) (p : Option Nat), s.length < fuel →
    hexState i code p →
    ∃ r, hexPairLoop fuel i code token s = some r ∧ hexPairAgrees token p s r := by
  induction n using Nat.strong_induction_on with
  | _ n ih =>
    intro s hn fuel i code token p hf hst
    have hi : i < 2 := by
      cases p with
      | none => have := hst.1; omega
      | some a => have := hst.1; omega
    have hfin := hexPairLoop_finish i code token p hst
    match fuel, hf with
    | f + 1, hf =>
      have hsw := SkipWhitespace_eq s.length s (Nat.le_refl _) (f + 1) hf
      have hsig := hexScan_significant s false p
      cases hfs : firstSignificant false s with
      | none =>
        rw [hfs] at hsw
        refine ⟨.returned { token with written := token.written ++ hexFinish p } [], ?_, ?_⟩
        · simp only [hexPairLoop, hi, if_true, hsw, skipResult, hfin]
        · simp [hexPairAgrees, hsig.1 hfs]
      | some q =>
        obtain ⟨b, rest⟩ := q
        rw [hfs] at hsw
        obtain ⟨hw, h37, _⟩ := firstSignificant_split s false b rest hfs
        obtain ⟨hlt, _⟩ := firstSignificant_skip s b rest hfs
        have hscan : hexScan false p s = hexScan false p (b :: rest) := hsig.2 b rest hfs
        rw [hexScan_byte p b rest hw h37] at hscan
        by_cases hb : b = 62
        · refine ⟨.returned { token with written := token.written ++ hexFinish p } rest, ?_, ?_⟩
          · simp only [hexPairLoop, hi, if_true, hsw, skipResult, hb, hfin]
          · simp only [hb, if_true] at hscan
            simp [hexPairAgrees, hscan]
        · by_cases hx : IsHex b = true
          · have hloop : hexPairLoop (f + 1) i code token s =
                hexPairLoop f (i + 1) (code.set i b) token rest := by
              simp [hexPairLoop, hi, hsw, skipResult, hb, hx]
            simp only [hb, if_false, hx, if_true] at hscan
            cases p with
            | none =>
              obtain ⟨hi0, hcode⟩ := hst
              subst hi0; subst hcode
              obtain ⟨r, hr, hag⟩ := ih rest.length (by omega) rest (Nat.le_refl _) f 1
                [b, 48] token (some b) (by omega) ⟨rfl, hx, rfl⟩
              refine ⟨r, by rw [hloop]; simpa using hr, ?_⟩
              cases r with
              | returned t r1 =>
                simp only [hexPairAgrees] at hag ⊢
                rw [hag, hscan]
              | pair c1 r1 =>
                simp only [hexPairAgrees] at hag ⊢
                exact ⟨by omega, by rw [hscan, hag.2]⟩
            | some a =>
              obtain ⟨hi1, ha, hcode⟩ := hst
              subst hi1; subst hcode
              refine ⟨.pair [a, b] rest, ?_, ?_⟩
              · rw [hloop]
                cases f with
                | zero => omega
                | succ g => simp [hexPairLoop]
              · simp only [hexPairAgrees]
                exact ⟨hlt, by rw [hscan, ParseUint_hex2 a b ha hx]⟩
          · have hx2 : IsHex b = false := by simpa using hx
            have hloop : hexPairLoop (f + 1) i code token s =
                hexPairLoop f i code token rest := by
              simp [hexPairLoop, hi, hsw, skipResult, hb, hx2]
            simp only [hb, if_false, hx2, Bool.false_eq_true] at hscan
            obtain ⟨r, hr, hag⟩ := ih rest.length (by omega) rest (Nat.le_refl _) f i
              code token p (by omega) hst
            refine ⟨r, by rw [hloop]; exact hr, ?_⟩
            cases r with
            | returned t r1 =>
              simp only [hexPairAgrees] at hag ⊢
              rw [hag, hscan]
            | pair c1 r1 =>
              simp only [hexPairAgrees] at hag ⊢
              exact ⟨by omega, by rw [hscan, hag.2]⟩

theorem hexLoop_scan (n : Nat) : ∀ (s : List Nat), s.length ≤ n →
    ∀ (fuel : Nat) (token : Token), s.length < fuel →
    ∃ rest, hexLoop fuel token s =
      some ({ token with written := token.written ++ hexScan false none s }, rest) := by
  induction n using Nat.strong_induction_on with
  | _ n ih =>
    intro s hn fuel token hf
    match fuel, hf with
    | f + 1, hf =>
      obtain ⟨r, hr, hag⟩ := hexPairLoop_scan s.length s (Nat.le_refl _) (f + 1) 0 [48, 48]
        token none hf ⟨rfl, rfl⟩
      rw [hexLoop_succ, hr]
      cases r with
      | returned t r1 =>
        simp only [hexPairAgrees] at hag
        exact ⟨r1, by rw [hag]⟩
      | pair code r1 =>
        simp only [hexPairAgrees] at hag
        obtain ⟨rest, hrest⟩ := ih r1.length (by omega) r1 (Nat.le_refl _) f
          (token.WriteByte ((ParseUint code 16 8).1 % 256)) (by omega)
        refine ⟨rest, ?_⟩
        simp only [hrest, hag.2]
        simp [Token.WriteByte]

theorem hexScan_insert (x : Nat) (post : List Nat) (hx : IsHex x = false) (hw : x ∉ whitespace)
    (h37 : x ≠ 37) (h62 : x ≠ 62) (pre : List Nat) : ∀ (c : Bool) (p : Option Nat),
    hexScan c p (pre ++ x :: post) = hexScan c p (pre ++ post) := by
  induction pre with
  | nil =>
    intro c p
    have h10 : x ≠ 10 := fun h => hw (by rw [h]; decide)
    cases c with
    | true => simp [hexScan, h10]
    | false => simp [hexScan, hw, h37, h62, hx]
  | cons b pre ih =>
    intro c p
    cases c with
    | true =>
      by_cases hb : b = 10
      · simp [hexScan, hb, ih]
      · simp [hexScan, hb, ih]
    | false =>
      by_cases hbw : b ∈ whitespace
      · simp [hexScan, hbw, ih]
      · by_cases hb37 : b = 37
        · subst hb37
          simp [hexScan, hbw, ih]
        · by_cases hb62 : b = 62
          · subst hb62
            simp [hexScan, hbw]
          · by_cases hbx : IsHex b = true
            · cases p with
              | none => simp [hexScan, hbw, hb37, hb62, hbx, ih]
              | some a => simp [hexScan, hbw, hb37, hb62, hbx, ih]
            · have hbx2 : IsHex b = false := by simpa using hbx
              simp [hexScan, hbw, hb37, hb62, hbx2, ih]

theorem hexScan_comment (cmt post : List Nat) (h10 : 10 ∉ cmt) (p : Option Nat) :
    hexScan false p (37 :: (cmt ++ 10 :: post)) = hexScan false p post := by
  have hin : hexScan true p (cmt ++ 10 :: post) = hexScan false p post := by
    induction cmt with
    | nil => simp [hexScan]
    | cons b cmt ih =>
      have hb : b ≠ 10 := fun h => h10 (by simp [h])
      have := ih (fun h => h10 (List.mem_cons_of_mem _ h))
      simp [hexScan, hb, this]
  have hw : (37 : Nat) ∉ whitespace := by decide
  simp [hexScan, hw, hin]

theorem hexScan_after (s1 s2 : List Nat) (h : ∀ p, hexScan false p s1 = hexScan false p s2)
    (pre : List Nat) (hpre : 37 ∉ pre) : ∀ (p : Option Nat),
    hexScan false p (pre ++ s1) = hexScan false p (pre ++ s2) := by
  induction pre with
  | nil => intro p; exact h p
  | cons b pre ih =>
    intro p
    have hb37 : b ≠ 37 := fun hb => hpre (by simp [hb])
    have ih2 := ih (fun hm => hpre (List.mem_cons_of_mem _ hm))
    by_cases hbw : b ∈ whitespace
    · simp [hexScan, hbw, ih2]
    · by_cases hb62 : b = 62
      · subst hb62
        simp [hexScan, hbw]
      · by_cases hbx : IsHex b = true
        · cases p with
          | none => simp [hexScan, hbw, hb37, hb62, hbx, ih2]
          | some a => simp [hexScan, hbw, hb37, hb62, hbx, ih2]
        · have hbx2 : IsHex b = false := by simpa using hbx
          simp [hexScan, hbw, hb37, hb62, hbx2, ih2]

theorem NextToken_hex_scan (s : List Nat) (hs : s.head? ≠ some 60) :
    ∃ rest, NextToken (60 :: s) =
      some (.ok { NewToken 60 with written := hexScan false none s }, rest) := by
  have hlead : firstSignificant false (60 :: s) = some (60, s) := by
    simp [firstSignificant, whitespace]
  obtain ⟨rest, hrest⟩ := hexLoop_scan s.length s (Nat.le_refl _) ((60 :: s).length + 1)
    (NewToken 60) (by simp only [List.length_cons]; omega)
  refine ⟨rest, ?_⟩
  rw [NextToken_hex (60 :: s) s hlead hs, hrest]
  simp [okToken, NewToken]

/-- C19: inside a hex string a byte `x` that is no hex digit, no whitespace, no `%` and no
`>` is skipped without breaking the pairing of the digits: for every hex-string input
(`<` not followed by `<`) inserting `x` anywhere after the `<`, `x` not being `<` when it
comes first, leaves the returned token as it was; and a `%`-to-LF comment put after any
bytes of the hex string that hold no `%` leaves it as it was too.  `<4G8>` gives the
token of `<48>`, and so does `<4%G<LF>8>`. -/
theorem hex_skips_other_bytes (pre post : List Nat) (x : Nat)
    (hx : IsHex x = false ∧ x ∉ whitespace ∧ x ≠ 37 ∧ x ≠ 62)
    (hhex : (pre ++ post).head? ≠ some 60) (hfirst : pre = [] → x ≠ 60)
    (pre2 cmt post2 : List Nat) (hpre2 : 37 ∉ pre2) (hcmt : 10 ∉ cmt)
    (hhex2 : (pre2 ++ post2).head? ≠ some 60) :
    (∃ t r1 r2, NextToken (60 :: (pre ++ x :: post)) = some (.ok t, r1) ∧
      NextToken (60 :: (pre ++ post)) = some (.ok t, r2) ∧
      t.written = hexScan false none (pre ++ post)) ∧
    (∃ t r1 r2, NextToken (60 :: (pre2 ++ 37 :: (cmt ++ 10 :: post2))) = some (.ok t, r1) ∧
      NextToken (60 :: (pre2 ++ post2)) = some (.ok t, r2)) ∧
    (∃ t, NextToken [60, 52, 71, 56, 62] = some (.ok t, []) ∧
      NextToken [60, 52, 56, 62] = some (.ok t, []) ∧
      NextToken [60, 52, 37, 71, 10, 56, 62] = some (.ok t, [])) := by
  refine ⟨?_, ?_, ⟨⟨60, [72, 62], false⟩, by decide, by decide, by decide⟩⟩
  · have hhead : (pre ++ x :: post).head? ≠ some 60 := by
      cases pre with
      | nil => simpa using hfirst rfl
      | cons b pre => simpa using hhex
    obtain ⟨r1, h1⟩ := NextToken_hex_scan (pre ++ x :: post) hhead
    obtain ⟨r2, h2⟩ := NextToken_hex_scan (pre ++ post) hhex
    rw [hexScan_insert x post hx.1 hx.2.1 hx.2.2.1 hx.2.2.2 pre false none] at h1
    exact ⟨_, r1, r2, h1, h2, rfl⟩
  · have hhead : (pre2 ++ 37 :: (cmt ++ 10 :: post2)).head? ≠ some 60 := by
      cases pre2 with
      | nil => simp
      | cons b pre2 => simpa using hhex2
    obtain ⟨r1, h1⟩ := NextToken_hex_scan (pre2 ++ 37 :: (cmt ++ 10 :: post2)) hhead
    obtain ⟨r2, h2⟩ := NextToken_hex_scan (pre2 ++ post2) hhex2
    rw [hexScan_after (37 :: (cmt ++ 10 :: post2)) post2
      (fun p => hexScan_comment cmt post2 hcmt p) pre2 hpre2 none] at h1
    exact ⟨_, r1, r2, h1, h2⟩

/-- Witness of C19: `G` put between the digits of `<48>`, and the comment `%G<LF>` put
after the `4`. -/
theorem hex_skips_other_bytes_witness :
    (∃ t r1 r2, NextToken (60 :: ([52] ++ 71 :: [56, 62])) = some (.ok t, r1) ∧
      NextToken (60 :: ([52] ++ [56, 62])) = some (.ok t, r2) ∧
      t.written = hexScan false none ([52] ++ [56, 62])) ∧
    (∃ t r1 r2, NextToken (60 :: ([52] ++ 37 :: ([71] ++ 10 :: [56, 62]))) = some (.ok t, r1) ∧
      NextToken (60 :: ([52] ++ [56, 62])) = some (.ok t, r2)) ∧
    (∃ t, NextToken [60, 52, 71, 56, 62] = some (.ok t, []) ∧
      NextToken [60, 52, 56, 62] = some (.ok t, []) ∧
      NextToken [60, 52, 37, 71, 10, 56, 62] = some (.ok t, [])) :=
  hex_skips_other_bytes [52] [56, 62] 71 (by decide) (by decide) (by decide)
    [52] [71] [56, 62] (by decide) (by decide) (by decide)

theorem resolve_number_only (fuel : Nat) (pdf : Pdf) (r1 r2 : Reference)
    (hnum : r1.Number = r2.Number) (visited : List Int) :
    resolve fuel pdf r1 visited = resolve fuel pdf r2 visited := by
  cases fuel with
  | zero => rfl
  | succ f => simp only [resolve, hnum]

/-- C20: resolution depends on object numbers only.  For every document, two references
with the same number, whatever their generations, get the same result from `resolve`,
`Resolve` and `ResolveStream` at every recursion depth, and both calls return when the
reference-valued object numbers of the document lie in a finite list.  A reference to a
number already visited gives the cycle-break placeholder for that number whatever its
generation; so when the chain followed from a reference to `n` with generation `g1` leads
back to a reference to `n`, whatever generation that one carries, the walk ends with the
placeholder for `n`. -/
theorem resolve_ignores_generation (pdf : Pdf) (r1 r2 : Reference)
    (hnum : r1.Number = r2.Number) :
    (∀ fuel visited, resolve fuel pdf r1 visited = resolve fuel pdf r2 visited) ∧
    (∀ fuel, Resolve fuel pdf r1 = Resolve fuel pdf r2 ∧
      ResolveStream fuel pdf r1 = ResolveStream fuel pdf r2) ∧
    (∀ nums : List Int, (∀ n r, (pdf.objects n).Value = .reference r → n ∈ nums) →
      ∃ value stream pdf1, ∀ fuel, nums.length + 2 ≤ fuel →
        Resolve fuel pdf r1 = some (value, pdf1) ∧ Resolve fuel pdf r2 = some (value, pdf1) ∧
        ResolveStream fuel pdf r1 = some (stream, pdf1) ∧
        ResolveStream fuel pdf r2 = some (stream, pdf1)) ∧
    (∀ (n g : Int) (visited : List Int) (fuel : Nat), n ∈ visited →
      resolve (fuel + 1) pdf ⟨n, g⟩ visited = some (NewIndirectObject n, pdf, visited)) ∧
    (∀ (n : Int) (rest : List Int) (g1 : Int), (n :: rest).Nodup →
      followsChain pdf.objects (n :: rest) n = true →
      ∃ pdf1, ∀ fuel, rest.length + 2 ≤ fuel →
        resolve fuel pdf ⟨n, g1⟩ [] =
          some (NewIndirectObject n, pdf1, (n :: rest).reverse)) := by
  have hres : ∀ fuel visited, resolve fuel pdf r1 visited = resolve fuel pdf r2 visited :=
    fun fuel visited => resolve_number_only fuel pdf r1 r2 hnum visited
  refine ⟨hres, ?_, ?_, ?_, ?_⟩
  · intro fuel
    exact ⟨by simp only [Resolve, hres fuel []], by simp only [ResolveStream, hres fuel []]⟩
  · intro nums hfin
    obtain ⟨object, offset1, added, _, _, hlen, hfuel, _⟩ :=
      resolve_aux pdf.objects pdf.position nums hfin
        (nums.toFinset \ ([] : List Int).toFinset).card pdf.offset r1 [] (Nat.le_refl _)
    refine ⟨object.Value, object.Stream,
      Pdf.Seek ⟨offset1, pdf.objects, pdf.position⟩ pdf.CurrentOffset, ?_⟩
    intro fuel hf
    have hcard := List.toFinset_card_le nums
    simp only [List.toFinset_nil, Finset.sdiff_empty] at hlen
    have h1 : resolve fuel pdf r1 [] =
        some (object, ⟨offset1, pdf.objects, pdf.position⟩, added ++ []) :=
      hfuel fuel (by omega)
    have h2 : resolve fuel pdf r2 [] =
        some (object, ⟨offset1, pdf.objects, pdf.position⟩, added ++ []) := by
      rw [← hres fuel []]
      exact h1
    exact ⟨by simp only [Resolve, h1], by simp only [Resolve, h2],
      by simp only [ResolveStream, h1], by simp only [ResolveStream, h2]⟩
  · intro n g visited fuel hv
    simp [resolve, hv]
  · intro n rest g1 hnd hchain
    obtain ⟨offset1, hfuel⟩ := resolve_chain pdf.objects pdf.position n rest n pdf.offset
      ⟨n, g1⟩ [] rfl hnd (by simp) hchain (Or.inl (by simp))
    refine ⟨⟨offset1, pdf.objects, pdf.position⟩, ?_⟩
    intro fuel hf
    have h := hfuel fuel hf
    simp only [List.append_nil] at h
    exact h

theorem chainDocument_refs (n : Int) (r : Reference)
    (h : (chainDocument.objects n).Value = .reference r) : n ∈ [1, 2] := by
  simp only [chainDocument] at h
  split_ifs at h with h1 h2 h3
  · simp [h1]
  · simp [h2]

/-- Witness of C20.  On the chain example, which has no cycle, references to object 1
with generations 5 and 9 resolve alike, to the value and the stream of object 3.  On the
cycle example the reference `(1, 5)` followed round the cycle meets the stored reference
`(1, 0)` and ends with the placeholder for object 1. -/
theorem resolve_ignores_generation_witness :
    ((∀ fuel visited,
        resolve fuel chainDocument ⟨1, 5⟩ visited = resolve fuel chainDocument ⟨1, 9⟩ visited) ∧
      (∀ fuel, Resolve fuel chainDocument ⟨1, 5⟩ = Resolve fuel chainDocument ⟨1, 9⟩ ∧
        ResolveStream fuel chainDocument ⟨1, 5⟩ = ResolveStream fuel chainDocument ⟨1, 9⟩)) ∧
    (∃ value stream pdf1, ∀ fuel, [1, 2].length + 2 ≤ fuel →
      Resolve fuel chainDocument ⟨1, 5⟩ = some (value, pdf1) ∧
      Resolve fuel chainDocument ⟨1, 9⟩ = some (value, pdf1) ∧
      ResolveStream fuel chainDocument ⟨1, 5⟩ = some (stream, pdf1) ∧
      ResolveStream fuel chainDocument ⟨1, 9⟩ = some (stream, pdf1)) ∧
    (Resolve 4 chainDocument ⟨1, 5⟩).map Prod.fst = some (.other [52, 50]) ∧
    (Resolve 4 chainDocument ⟨1, 9⟩).map Prod.fst = some (.other [52, 50]) ∧
    (ResolveStream 4 chainDocument ⟨1, 5⟩).map Prod.fst = some (some [1, 2, 3]) ∧
    (ResolveStream 4 chainDocument ⟨1, 9⟩).map Prod.fst = some (some [1, 2, 3]) ∧
    (∃ pdf1, ∀ fuel, [2].length + 2 ≤ fuel →
      resolve fuel cycleDocument ⟨1, 5⟩ [] =
        some (NewIndirectObject 1, pdf1, ((1 : Int) :: [2]).reverse)) :=
  ⟨⟨(resolve_ignores_generation chainDocument ⟨1, 5⟩ ⟨1, 9⟩ rfl).1,
      (resolve_ignores_generation chainDocument ⟨1, 5⟩ ⟨1, 9⟩ rfl).2.1⟩,
    (resolve_ignores_generation chainDocument ⟨1, 5⟩ ⟨1, 9⟩ rfl).2.2.1 [1, 2] chainDocument_refs,
    by decide, by decide, by decide, by decide,
    (resolve_ignores_generation cycleDocument ⟨1, 5⟩ ⟨1, 9⟩ rfl).2.2.2.2 1 [2] 5
      (by decide) (by decide)⟩

end pdf
